import Mathlib

/-!
Verification of the `bf` repository (a Brainfuck IR optimizer, tree-walking
interpreter and JIT code generator) against its natural-language specification.

The development shallowly embeds the Rust sources:
 * `src/bf.rs`        — the `Statement` IR, `constant_fold`, `peephole_optimization`,
                        `optimize`, and the growable-tape interpreter `Context`.
 * `src/bf/panicking.rs` — the fixed-tape interpreters `StaticContext{8,16,32,64}`
                        (generated by the `impl_static_ctx!` macro; embedded here
                        parametrically in the cell width `w ∈ {8,16,32,64}`).
 * `src/jit.rs` / `src/main.rs` — the constants governing the lowered function's
                        tape initialisation and the final memcpy into the CLI buffer.

Modelling conventions:
 * Machine integers are modelled as `Nat`/`Int` with explicit reductions modulo
   `2^w` where the Rust code wraps.  `i8` cells are stored by their unsigned bit
   pattern (a `Nat`; `< 256` on every state reachable from a Rust-typed state);
   the signed reading used by the source is `i8val`.
 * `usize`/`u64` counts are list lengths and are modelled as plain `Nat`
   (a Rust `Vec` length never reaches `2^63`, so the `as isize` / `as i64`
   casts performed by `peephole_optimization` are value-preserving and are
   modelled as `Int` coercions).  The one place where `usize` wrap-around is
   real observable behaviour — `StaticContext::adj_pos`, which converts
   `pos as isize + offset` back with `as usize` — is modelled with an explicit
   `% 2^64`.
 * Fallible code returns `Option`/`Except`-style results: the growable
   interpreter's `Result<_, Error>` is the `Outcome.err` branch of the big-step
   relation, a Rust panic (array index out of bounds, `unwrap` of a failed
   read) in the fixed-tape interpreter is `SOutcome.panic`.
 * `constant_fold`'s `while` scan loop is embedded with explicit fuel
   (`cfF`), one unit per iteration of the loop; the loop body makes no
   progress on `AddOffset`/`SearchZero` heads, which surfaces as `none`
   for every amount of fuel.
-/

/-- The IR node type, from `src/bf.rs` lines 7–22 (`enum Statement`). -/
inductive Statement where
  | Next : Nat → Statement
  | Prev : Nat → Statement
  | Inc : Nat → Statement
  | Dec : Nat → Statement
  | Out : Statement
  | In : Statement
  | Loop : List Statement → Statement
  | Clear : Statement
  | AddOffset : Int → Nat → Statement
  | SearchZero : Int → Statement
deriving Repr

namespace Statement

/-- `Statement::is_next` (bf.rs 25–27). -/
def isNext : Statement → Bool
  | .Next _ => true
  | _ => false

/-- `Statement::is_prev` (bf.rs 29–31). -/
def isPrev : Statement → Bool
  | .Prev _ => true
  | _ => false

/-- `Statement::is_inc` (bf.rs 33–35). -/
def isInc : Statement → Bool
  | .Inc _ => true
  | _ => false

/-- `Statement::is_dec` (bf.rs 37–39). -/
def isDec : Statement → Bool
  | .Dec _ => true
  | _ => false

end Statement

/-- One iteration of `constant_fold`'s scan loop (bf.rs 46–115) embedded with
fuel: `cfF (fuel) stmts` runs the `while idx < stmts.len()` loop on the suffix
`stmts`, spending one unit of fuel per loop iteration, and returns `none` when
fuel runs out.  Each branch of the Rust loop either advances `idx` past what it
consumed (modelled by recursing on the corresponding suffix) or — for
`AddOffset`/`SearchZero` heads, which match no branch — leaves `idx` unchanged
(modelled by recursing on the same list with one unit of fuel consumed, so that
the result is `none` for every fuel amount). -/
def cfF : Nat → List Statement → Option (List Statement)
  | 0, _ => none
  | _ + 1, [] => some []
  | fuel + 1, s :: rest =>
    match s with
    | .Loop l => do
        let fl ← cfF fuel l
        let fr ← cfF fuel rest
        pure (.Loop fl :: fr)
    | .In => (cfF fuel rest).map (fun r => .In :: r)
    | .Out => (cfF fuel rest).map (fun r => .Out :: r)
    | .Clear => (cfF fuel rest).map (fun r => .Clear :: r)
    | .Next _ =>
        let c := ((s :: rest).takeWhile Statement.isNext).length
        (cfF fuel ((s :: rest).drop c)).map (fun r => .Next c :: r)
    | .Prev _ =>
        let c := ((s :: rest).takeWhile Statement.isPrev).length
        (cfF fuel ((s :: rest).drop c)).map (fun r => .Prev c :: r)
    | .Dec _ =>
        let c := ((s :: rest).takeWhile Statement.isDec).length
        (cfF fuel ((s :: rest).drop c)).map (fun r => .Dec c :: r)
    | .Inc _ =>
        let c := ((s :: rest).takeWhile Statement.isInc).length
        (cfF fuel ((s :: rest).drop c)).map (fun r => .Inc c :: r)
    | .AddOffset m o => cfF fuel (.AddOffset m o :: rest)
    | .SearchZero k => cfF fuel (.SearchZero k :: rest)

mutual
/-- Size of a statement tree, used as a sufficient fuel bound for `cfF`. -/
def szS : Statement → Nat
  | .Loop l => szL l + 1
  | _ => 1

/-- Size of a statement list (`≥ length + 1`). -/
def szL : List Statement → Nat
  | [] => 1
  | s :: r => szS s + szL r
end

/-- `constant_fold` (bf.rs 46–115).  The Rust function diverges on inputs
containing `AddOffset`/`SearchZero`; partiality is modelled by running the
fuelled scan with the canonical (sufficient, see `cfF_enough`) fuel `szL`. -/
def constant_fold (stmts : List Statement) : Option (List Statement) :=
  cfF (szL stmts) stmts

/-- The `match l.as_slice()` of `peephole_optimization`'s `Loop` arm
(bf.rs 121–128).  `fl` is the recursively optimized body used by the fallback
arm (`_ => Loop(peephole_optimization(l))`); it is passed in pre-computed so
that the pattern match itself is not recursive (the Rust code computes it
lazily only in the fallback arms, which yields the same value). -/
def phLoop (l : List Statement) (fl : List Statement) : List Statement :=
  match l with
  | [.Dec 1] => [.Clear]
  | [.Inc 1] => [.Clear]
  | [.Dec 1, .Next n, .Inc i, .Prev m] =>
    if n = m then [.AddOffset (i : Int) n, .Clear] else [.Loop fl]
  | [.Prev n] => [.SearchZero ((n : Int) * (-1))]
  | [.Next n] => [.SearchZero (n : Int)]
  | _ => [.Loop fl]

mutual
/-- The per-statement action of `peephole_optimization`'s `flat_map` closure
(bf.rs 119–131): `Loop` bodies go through the `phLoop` pattern match, all
other statements are passed through as singletons. -/
def phStmt : Statement → List Statement
  | .Loop l => phLoop l (peephole_optimization l)
  | s => [s]

/-- `peephole_optimization` (bf.rs 117–133): `flat_map` over the sequence. -/
def peephole_optimization : List Statement → List Statement
  | [] => []
  | s :: rest => phStmt s ++ peephole_optimization rest
end

/-- `optimize` (bf.rs 42–44): `peephole_optimization(constant_fold(stmts))`
(`none` when `constant_fold` diverges). -/
def optimize (stmts : List Statement) : Option (List Statement) :=
  (constant_fold stmts).map peephole_optimization

mutual
/-- The statement is one of the eight variants handled by `constant_fold`'s
scan loop (the parser-producible variants plus `Clear`). -/
def foldableS : Statement → Bool
  | .Loop l => foldableL l
  | .AddOffset _ _ => false
  | .SearchZero _ => false
  | _ => true

/-- All statements, recursively, are drawn from the eight foldable variants. -/
def foldableL : List Statement → Bool
  | [] => true
  | s :: r => foldableS s && foldableL r
end

mutual
/-- The statement is of the exact shape the parser emits (`src/parser.rs`):
counted variants carry count 1, no `Clear`/`AddOffset`/`SearchZero`. -/
def parserishS : Statement → Bool
  | .Next n => n = 1
  | .Prev n => n = 1
  | .Inc n => n = 1
  | .Dec n => n = 1
  | .Out => true
  | .In => true
  | .Clear => true
  | .Loop l => parserishL l
  | _ => false

/-- All statements, recursively, are parser-shaped (counts 1; `Clear` is also
permitted — it passes through both optimizer passes unchanged). -/
def parserishL : List Statement → Bool
  | [] => true
  | s :: r => parserishS s && parserishL r
end

/-! ## The growable-tape interpreter (`Context`, bf.rs 155–297)

Cells are `i8`; they are modelled by their unsigned bit pattern (a `Nat`,
`< 256` on every state reachable from a Rust-typed state).  The output sink
(stdout) is modelled as the list of bytes written so far; `print!("{}", d as
u8 as char)` writes the UTF-8 encoding of the code point `d as u8`, which is
captured by `charPrintBytes`.  The input source (stdin) is modelled as the
list of bytes yet to be read. -/

/-- Truncation of a signed integer to an `i8` store, read as the unsigned bit
pattern (`v as i8`, viewed as `u8`). -/
def wrap8 (z : Int) : Nat := (z % 256).toNat

/-- The signed (`as i64`-style sign extension) reading of an `i8` cell stored
by its unsigned pattern. -/
def i8val (c : Nat) : Int :=
  if c % 256 < 128 then ((c % 256 : Nat) : Int) else ((c % 256 : Nat) : Int) - 256

/-- The bytes `print!("{}", c)` writes to stdout for a `char` in
`U+0000..U+00FF` (the image of `u8 as char`): one byte below `0x80`, the
two-byte UTF-8 encoding otherwise. -/
def charPrintBytes (b : Nat) : List Nat :=
  if b < 128 then [b] else [192 + b / 64, 128 + b % 64]

/-- `struct Context` (bf.rs 155–159), extended with the I/O channels the Rust
code reaches through `stdin()`/`print!` so that executions are deterministic
functions of the state. -/
structure Context where
  data : List Nat
  idx : Nat
  input : List Nat
  output : List Nat
deriving Repr, DecidableEq

namespace Context

/-- `Context::new` (bf.rs 162–164): tape `[0]`, pointer `0`, given stdin. -/
def init (inp : List Nat) : Context := ⟨[0], 0, inp, []⟩

/-- `Context::cur` (bf.rs 239–241): `self.data[self.idx]` (always in bounds on
reachable states, see `exec_wf`). -/
def cur (st : Context) : Nat := st.data.getD st.idx 0

/-- `self.data[self.idx] = v` — in-place store at the pointer. -/
def setCur (st : Context) (v : Nat) : Context := { st with data := st.data.set st.idx v }

/-- `Context::adv` (bf.rs 173–178): advance the pointer by `a` and
`resize(idx + 1, 0)` whenever the new pointer crosses the end. -/
def adv (st : Context) (a : Nat) : Context :=
  let i := st.idx + a
  { st with
    idx := i
    data := if st.data.length ≤ i
            then st.data ++ List.replicate (i + 1 - st.data.length) 0
            else st.data }

/-- `Context::ret` (bf.rs 180–182): `idx.saturating_sub(a)` (which is exactly
`Nat` subtraction). -/
def ret (st : Context) (a : Nat) : Context := { st with idx := st.idx - a }

/-- `Context::inc_many` (bf.rs 204–210): unsigned wrapping add of a `u8` at
the pointer. -/
def incMany (st : Context) (a : Nat) : Context := st.setCur ((st.cur + a) % 256)

/-- `Context::dec_many` (bf.rs 217–223): unsigned wrapping subtract of a `u8`
at the pointer. -/
def decMany (st : Context) (a : Nat) : Context := st.setCur (wrap8 ((st.cur : Int) - (a : Int)))

/-- `Context::out` (bf.rs 225–229): `print!("{}", d as u8 as char)`. -/
def outStep (st : Context) : Context :=
  { st with output := st.output ++ charPrintBytes (st.cur % 256) }

/-- `Context::inp` (bf.rs 231–237), success case: store the byte read from
stdin at the pointer (`res[0] as i8` preserves the bit pattern). -/
def readByte (st : Context) (b : Nat) (rest : List Nat) : Context :=
  { st with
    data := st.data.set st.idx (b % 256)
    input := rest }

/-- `Context::clear` (bf.rs 243–245): store `0` at the pointer. -/
def clearStep (st : Context) : Context := st.setCur 0

/-- The `Statement::AddOffset` arm of `Context::exec` (bf.rs 263–274):
`val = mul * cur`, advance by `offset`, add `val` to the cell there
(truncated to `i8`), retract by `offset`.  The `i64` arithmetic is modelled
over `Int`: the final `as i8` truncation makes wrap-around at `2^64`
unobservable. -/
def addOff (st : Context) (mul : Int) (off : Nat) : Context :=
  let val := mul * i8val st.cur
  let st1 := st.adv off
  let st2 := st1.setCur (wrap8 (i8val st1.cur + val))
  st2.ret off

/-- One iteration step of the `Statement::SearchZero` arm (bf.rs 275–285):
`ret((stride * -1) as usize)` for negative strides, `adv(stride as usize)`
otherwise. -/
def szStep (st : Context) (k : Int) : Context :=
  if k < 0 then st.ret ((k * (-1)).toNat) else st.adv k.toNat

end Context

/-- The `Result<(), Error>` of `Context::exec`/`exec_many`, with the context
(the `&mut self` the caller keeps) attached to both constructors.  The only
error `exec` can produce is `Error::IO` (from a failed `read_exact` in
`Context::inp`); `Error::OutOfBounds` is never constructed. -/
inductive Outcome where
  | ok : Context → Outcome
  | err : Context → Outcome
deriving Repr, DecidableEq

/-- The context carried by an outcome. -/
def Outcome.state : Outcome → Context
  | .ok st => st
  | .err st => st

/-- Big-step execution of a statement sequence: `Exec l st r` holds iff
`st.exec_many(&l)` (bf.rs 289–296, iterating `Context::exec`, bf.rs 247–287)
terminates with outcome `r`.  Sequencing is in continuation style: each rule
consumes the head statement.  `Loop`/`SearchZero` unfold their `while`
loops one test at a time, re-deriving the same head. -/
inductive Exec : List Statement → Context → Outcome → Prop where
  | nil (st) : Exec [] st (.ok st)
  | next (a l st r) : Exec l (st.adv a) r → Exec (.Next a :: l) st r
  | prev (a l st r) : Exec l (st.ret a) r → Exec (.Prev a :: l) st r
  | inc (a l st r) : Exec l (st.incMany (a % 256)) r → Exec (.Inc a :: l) st r
  | dec (a l st r) : Exec l (st.decMany (a % 256)) r → Exec (.Dec a :: l) st r
  | out (l st r) : Exec l st.outStep r → Exec (.Out :: l) st r
  | inOk (l st r b rest) : st.input = b :: rest → Exec l (st.readByte b rest) r →
      Exec (.In :: l) st r
  | inErr (l st) : st.input = [] → Exec (.In :: l) st (.err st)
  | clear (l st r) : Exec l st.clearStep r → Exec (.Clear :: l) st r
  | addOff (mul off l st r) : Exec l (st.addOff mul off) r →
      Exec (.AddOffset mul off :: l) st r
  | loopDone (b l st r) : st.cur = 0 → Exec l st r → Exec (.Loop b :: l) st r
  | loopIter (b l st st1 r) : st.cur ≠ 0 → Exec b st (.ok st1) →
      Exec (.Loop b :: l) st1 r → Exec (.Loop b :: l) st r
  | loopErr (b l st e) : st.cur ≠ 0 → Exec b st (.err e) →
      Exec (.Loop b :: l) st (.err e)
  | szDone (k l st r) : st.cur = 0 → Exec l st r → Exec (.SearchZero k :: l) st r
  | szIter (k l st r) : st.cur ≠ 0 → Exec (.SearchZero k :: l) (st.szStep k) r →
      Exec (.SearchZero k :: l) st r

/-- Well-formedness of a context: the pointer is in bounds and every cell is a
`u8` bit pattern (automatic in Rust from `idx`'s maintenance and `Vec<i8>`'s
types; an explicit invariant over the `Nat` model). -/
def Wf (st : Context) : Prop :=
  st.idx < st.data.length ∧ ∀ c ∈ st.data, c < 256

/-- The tape as a total function: cell `i`, reading `0` beyond the end (the
growable tape extends with zeros, so this is the observable content). -/
def view (st : Context) (i : Nat) : Nat := st.data.getD i 0

/-- Observational equivalence of contexts: same pointer, same remaining input,
same emitted output, same tape contents up to trailing zero cells. -/
def ObsEq (st1 st2 : Context) : Prop :=
  st1.idx = st2.idx ∧ st1.input = st2.input ∧ st1.output = st2.output ∧
    ∀ i, view st1 i = view st2 i

/-! ## The fixed-tape interpreters (`StaticContext{8,16,32,64}`, panicking.rs)

The `impl_static_ctx!` macro stamps out one copy per cell type
`i8/i16/i32/i64`; the embedding is parametric in the cell width `w`
(`w ∈ {8, 16, 32, 64}`), cells stored by their unsigned bit pattern modulo
`2^w`.  Array indexing out of bounds and `unwrap()` of a failed read panic;
panics are the `SOutcome.panic` constructor. -/

/-- `NUM_CELLS` — `64 * 1024` in both panicking.rs line 6 and jit.rs line 18. -/
def NUM_CELLS : Nat := 64 * 1024

/-- The signed reading of a width-`w` cell stored by its unsigned pattern
(`cur as i64` sign extension). -/
def sgnv (w : Nat) (c : Nat) : Int :=
  if c % 2 ^ w < 2 ^ (w - 1) then ((c % 2 ^ w : Nat) : Int)
  else ((c % 2 ^ w : Nat) : Int) - 2 ^ w

/-- Truncation of a signed integer to a width-`w` store, read back as the
unsigned bit pattern (`v as $num` viewed unsigned). -/
def wrapW (w : Nat) (z : Int) : Nat := (z % (2 ^ w)).toNat

/-- `struct StaticContext*` (panicking.rs 10–14), extended with the modelled
I/O channels.  `data` has length `NUM_CELLS` whenever built by
`new`/`with_state`; the embedding keeps the length as the array bound. -/
structure StaticCtx where
  data : List Nat
  pos : Nat
  input : List Nat
  output : List Nat
deriving Repr, DecidableEq

namespace StaticCtx

/-- `StaticContext::new` (panicking.rs 17–22): `NUM_CELLS` zero cells. -/
def initS (inp : List Nat) : StaticCtx := ⟨List.replicate NUM_CELLS 0, 0, inp, []⟩

/-- `StaticContext::adj_pos` (panicking.rs 44–46):
`pos = (pos as isize + offset) as usize` — two's-complement wrap-around at
`2^64`, with **no** saturation. -/
def adjPos (st : StaticCtx) (d : Int) : StaticCtx :=
  { st with pos := (((st.pos : Int) + d) % (2 ^ 64)).toNat }

/-- `StaticContext::cur` (panicking.rs 39–41): `self.data[self.pos]`; `none`
models the out-of-bounds panic. -/
def curS (st : StaticCtx) : Option Nat := st.data[st.pos]?

/-- `StaticContext::adj_val` (panicking.rs 49–51):
`data[pos] = ((cur as i64).wrapping_add(val)) as $num`.  The `i64`
wrap-around is unobservable after the truncation to width `w ≤ 64`, so the
sum is taken over `Int` and truncated by `wrapW`. -/
def adjVal (st : StaticCtx) (w : Nat) (v : Int) : Option StaticCtx :=
  (st.data[st.pos]?).map fun c =>
    { st with data := st.data.set st.pos (wrapW w (sgnv w c + v)) }

/-- `StaticContext::clear` (panicking.rs 54–56): `data[pos] = 0`. -/
def clearS (st : StaticCtx) : Option StaticCtx :=
  if st.pos < st.data.length then some { st with data := st.data.set st.pos 0 }
  else none

/-- `StaticContext::out` (panicking.rs 68–70):
`print!("{}", self.cur() as u8 as char)` — reads the cell, takes the low 8
bits, prints the corresponding `char` (UTF-8 encoded). -/
def outS (st : StaticCtx) : Option StaticCtx :=
  (st.data[st.pos]?).map fun c =>
    { st with output := st.output ++ charPrintBytes (c % 256) }

/-- `StaticContext::inp` (panicking.rs 62–66): `read_exact(..).unwrap()` then
`data[pos] = dest[0] as $num`.  An empty input makes the `unwrap` panic;
an out-of-bounds `pos` makes the store panic. -/
def inpS (st : StaticCtx) : Option StaticCtx :=
  match st.input with
  | [] => none
  | b :: rest =>
    if st.pos < st.data.length then
      some { st with
             data := st.data.set st.pos (b % 256)
             input := rest }
    else none

/-- The `Statement::AddOffset` arm of `StaticContext::exec`
(panicking.rs 100–104): `c = (cur as i64).wrapping_mul(mul)`,
`data[pos + offset] = c.wrapping_add(data[pos + offset] as i64) as $num`. -/
def addOffS (st : StaticCtx) (w : Nat) (mul : Int) (off : Nat) : Option StaticCtx :=
  match st.data[st.pos]?, st.data[st.pos + off]? with
  | some c, some d =>
    some { st with data := st.data.set (st.pos + off) (wrapW w (sgnv w c * mul + sgnv w d)) }
  | _, _ => none

end StaticCtx

/-- Result of a fixed-tape execution: normal completion, or a panic (array
access out of bounds / failed `read_exact` unwrap), which aborts the run. -/
inductive SOutcome where
  | ok : StaticCtx → SOutcome
  | panic : StaticCtx → SOutcome
deriving Repr, DecidableEq

/-- Big-step execution of `StaticContext::exec_many` (panicking.rs 113–116,
iterating `exec`, panicking.rs 72–111) at cell width `w`, in the same
continuation style as `Exec`. -/
inductive SExec (w : Nat) : List Statement → StaticCtx → SOutcome → Prop where
  | nil (st) : SExec w [] st (.ok st)
  | next (i l st r) : SExec w l (st.adjPos (i : Int)) r → SExec w (.Next i :: l) st r
  | prev (i l st r) : SExec w l (st.adjPos (-(i : Int))) r → SExec w (.Prev i :: l) st r
  | incOk (i l st st1 r) : st.adjVal w (i : Int) = some st1 → SExec w l st1 r →
      SExec w (.Inc i :: l) st r
  | incPanic (i l st) : st.adjVal w (i : Int) = none → SExec w (.Inc i :: l) st (.panic st)
  | decOk (i l st st1 r) : st.adjVal w (-(i : Int)) = some st1 → SExec w l st1 r →
      SExec w (.Dec i :: l) st r
  | decPanic (i l st) : st.adjVal w (-(i : Int)) = none → SExec w (.Dec i :: l) st (.panic st)
  | outOk (l st st1 r) : st.outS = some st1 → SExec w l st1 r → SExec w (.Out :: l) st r
  | outPanic (l st) : st.outS = none → SExec w (.Out :: l) st (.panic st)
  | inOk (l st st1 r) : st.inpS = some st1 → SExec w l st1 r → SExec w (.In :: l) st r
  | inPanic (l st) : st.inpS = none → SExec w (.In :: l) st (.panic st)
  | clearOk (l st st1 r) : st.clearS = some st1 → SExec w l st1 r → SExec w (.Clear :: l) st r
  | clearPanic (l st) : st.clearS = none → SExec w (.Clear :: l) st (.panic st)
  | addOffOk (mul off l st st1 r) : st.addOffS w mul off = some st1 → SExec w l st1 r →
      SExec w (.AddOffset mul off :: l) st r
  | addOffPanic (mul off l st) : st.addOffS w mul off = none →
      SExec w (.AddOffset mul off :: l) st (.panic st)
  | loopDone (b l st r) : st.curS = some 0 → SExec w l st r → SExec w (.Loop b :: l) st r
  | loopIter (b l st st1 c r) : st.curS = some c → c ≠ 0 → SExec w b st (.ok st1) →
      SExec w (.Loop b :: l) st1 r → SExec w (.Loop b :: l) st r
  | loopPanicCur (b l st) : st.curS = none → SExec w (.Loop b :: l) st (.panic st)
  | loopPanicBody (b l st e c) : st.curS = some c → c ≠ 0 → SExec w b st (.panic e) →
      SExec w (.Loop b :: l) st (.panic e)
  | szDone (k l st r) : st.curS = some 0 → SExec w l st r → SExec w (.SearchZero k :: l) st r
  | szIter (k l st c r) : st.curS = some c → c ≠ 0 →
      SExec w (.SearchZero k :: l) (st.adjPos k) r → SExec w (.SearchZero k :: l) st r
  | szPanicCur (k l st) : st.curS = none → SExec w (.SearchZero k :: l) st (.panic st)

/-! ## Constants of the native lowering (`jit.rs`) and the CLI (`main.rs`) -/

/-- The byte count of the `llvm.memset.p0i8.i32` call `lower_bf` emits over
the freshly alloca'd `NUM_CELLS`-cell tape: `i32_type.const_int(30000, false)`
(jit.rs line 73). -/
def lowerBfMemsetLen : Nat := 30000

/-- The set of tape cells the emitted memset zero-initialises. -/
def lowerBfInitializes (i : Nat) : Prop := i < lowerBfMemsetLen

/-- The byte count of the `build_memcpy` from the working tape into the
caller's out-pointer at function return: `NUM_CELLS` (jit.rs line 79). -/
def lowerBfMemcpyLen : Nat := NUM_CELLS

/-- The set of out-buffer byte offsets the emitted memcpy writes. -/
def lowerBfMemcpyWrites (i : Nat) : Prop := i < lowerBfMemcpyLen

/-- The length of the buffer `main` passes to the jitted function:
`let mut ctx = [0i8; 30000]` (main.rs line 99). -/
def cliTapeLen : Nat := 30000

/-! ## Analysis-side definitions

These do not embed source code; they characterise the shapes of optimizer
outputs and are used to state and prove the amended claims. -/

/-- Discriminant of a statement's variant. -/
def kindOf : Statement → Nat
  | .Next _ => 0
  | .Prev _ => 1
  | .Inc _ => 2
  | .Dec _ => 3
  | .Out => 4
  | .In => 5
  | .Loop _ => 6
  | .Clear => 7
  | .AddOffset _ _ => 8
  | .SearchZero _ => 9

mutual
/-- Inside every `Loop` body, no two adjacent statements share one of the four
counted kinds (`Next`/`Prev`/`Inc`/`Dec`) — the shape `constant_fold` outputs. -/
def coalescedS : Statement → Bool
  | .Loop l => coalescedL l
  | _ => true

/-- `coalescedS` over a sequence, plus: no two adjacent statements of the
sequence share a counted kind. -/
def coalescedL : List Statement → Bool
  | [] => true
  | [s] => coalescedS s
  | s :: t :: r =>
    (decide (kindOf s ≠ kindOf t) || decide (4 ≤ kindOf s)) && coalescedS s &&
      coalescedL (t :: r)
end

mutual
/-- Replace every counted payload by 1, recursively — the action of
`constant_fold` on an already-coalesced sequence. -/
def oneS : Statement → Statement
  | .Next _ => .Next 1
  | .Prev _ => .Prev 1
  | .Inc _ => .Inc 1
  | .Dec _ => .Dec 1
  | .Loop l => .Loop (oneL l)
  | s => s

/-- `oneS` mapped over a sequence. -/
def oneL : List Statement → List Statement
  | [] => []
  | s :: r => oneS s :: oneL r
end

/-! ## Theorems -/

/-- C2.  The lowering's return-time memcpy writes `NUM_CELLS = 65536` bytes
into the pointer the caller passes, but the CLI's buffer is only 30000 bytes:
the memcpy writes byte offset 30000 (and every offset up to 65535), which lies
past the end of that buffer — 35536 bytes are written out of bounds, so the
claim's "without writing past the end of that buffer" is violated by the code. -/
theorem c2_memcpy_overflows_cli_buffer :
    lowerBfMemcpyWrites cliTapeLen ∧ cliTapeLen < lowerBfMemcpyLen ∧
      lowerBfMemcpyLen - cliTapeLen = 35536 := by
  refine ⟨?_, by decide, by decide⟩
  unfold lowerBfMemcpyWrites lowerBfMemcpyLen cliTapeLen NUM_CELLS
  decide

/-- C3.  The memset `lower_bf` emits covers only 30000 of the
`NUM_CELLS = 65536` stack-allocated cells: cell 30000 lies inside the working
tape yet is not zero-initialised before any lowered IR statement runs, so the
claim that the entire tape is initialised (and that every cell read before
being written reads 0) is violated by the code. -/
theorem c3_memset_covers_30000_of_65536 :
    ¬ lowerBfInitializes lowerBfMemsetLen ∧ lowerBfMemsetLen < NUM_CELLS ∧
      NUM_CELLS - lowerBfMemsetLen = 35536 := by
  refine ⟨?_, by decide, by decide⟩
  unfold lowerBfInitializes lowerBfMemsetLen
  decide

/-- C5.  Executing `Output` on a cell holding 233 (`0xE9`): both interpreters
print `233u8 as char`, and `print!` writes that code point's two-byte UTF-8
encoding `[195, 169]` to stdout — not the single byte `[233]` the claim
requires.  (For cells below `0x80` the single claimed byte is written.) -/
theorem c5_output_writes_utf8_not_raw_byte :
    Exec [.Out] ⟨[233], 0, [], []⟩ (.ok ⟨[233], 0, [], [195, 169]⟩) ∧
      SExec 8 [.Out] ⟨[233], 0, [], []⟩ (.ok ⟨[233], 0, [], [195, 169]⟩) ∧
      charPrintBytes 233 = [195, 169] ∧ (charPrintBytes 233).length ≠ 1 ∧
      charPrintBytes 65 = [65] := by
  refine ⟨?_, ?_, by decide, by decide, by decide⟩
  · have h := Exec.out [] ⟨[233], 0, [], []⟩
      (.ok (Context.outStep ⟨[233], 0, [], []⟩)) (Exec.nil _)
    simpa [Context.outStep, Context.cur, charPrintBytes] using h
  · have hs : (⟨[233], 0, [], []⟩ : StaticCtx).outS = some ⟨[233], 0, [], [195, 169]⟩ := by
      decide
    exact SExec.outOk _ _ _ _ hs (SExec.nil _)

/-- C6, counterexample.  In the fixed-tape interpreter, `adj_pos` computes
`(pos as isize + offset) as usize` with **no** saturation: executing `Prev 1`
(`Move(-1)`) from pointer 0 sets the pointer to `2^64 - 1`, not to
`max(0 - 1, 0) = 0` as the claim states for "every interpreter state
(growable or fixed)". -/
theorem c6_counterexample :
    SExec 8 [.Prev 1] ⟨[0, 0], 0, [], []⟩
      (.ok ⟨[0, 0], 18446744073709551615, [], []⟩) ∧
      (18446744073709551615 : Nat) ≠ 0 := by
  refine ⟨?_, by decide⟩
  refine SExec.prev _ _ _ _ ?_
  have h : (⟨[0, 0], 0, [], []⟩ : StaticCtx).adjPos (-((1 : Nat) : Int)) =
      ⟨[0, 0], 18446744073709551615, [], []⟩ := by decide
  rw [h]
  exact SExec.nil _

/-- C6, amended.  For `n ≥ 1`, the growable interpreter's `Prev n` sets the
pointer to `max(p - n, 0)` (saturating at 0) and changes nothing else; the
fixed-tape interpreter's `Prev n` instead sets the pointer to
`(p - n) mod 2^64` (two's-complement wrap-around, no saturation) and changes
nothing else. -/
theorem c6_amended (n : Nat) (_hn : 1 ≤ n) :
    (∀ st : Context, Exec [.Prev n] st (.ok (st.ret n)) ∧
      ((st.ret n).idx : Int) = max ((st.idx : Int) - n) 0 ∧
      (st.ret n).data = st.data ∧ (st.ret n).input = st.input ∧
      (st.ret n).output = st.output) ∧
    (∀ (w : Nat) (st : StaticCtx),
      SExec w [.Prev n] st (.ok (st.adjPos (-(n : Int)))) ∧
      ((st.adjPos (-(n : Int))).pos : Int) = ((st.pos : Int) - n) % (2 ^ 64) ∧
      (st.adjPos (-(n : Int))).data = st.data ∧
      (st.adjPos (-(n : Int))).input = st.input ∧
      (st.adjPos (-(n : Int))).output = st.output) := by
  constructor
  · intro st
    refine ⟨Exec.prev _ _ _ _ (Exec.nil _), ?_, rfl, rfl, rfl⟩
    simp only [Context.ret]
    omega
  · intro w st
    refine ⟨SExec.prev _ _ _ _ (SExec.nil _), ?_, rfl, rfl, rfl⟩
    simp only [StaticCtx.adjPos]
    have h64 : (2 : Int) ^ 64 = 18446744073709551616 := by norm_num
    rw [h64, Int.sub_eq_add_neg]
    omega

/-- C6, witness: the amended statement applied at `n = 1` on a concrete state. -/
theorem c6_witness :
    Exec [.Prev 1] (Context.init []) (.ok ((Context.init []).ret 1)) :=
  ((c6_amended 1 (by decide)).1 (Context.init [])).1

/-- C8.  When `Input` is executed with an exhausted input source, the growable
interpreter returns the I/O error to its caller (`read_exact`'s error is
propagated by `?` through `exec`/`exec_many`): the error outcome is derivable,
and it is the only derivable outcome — in particular execution stops, no
statement after the failing `Input` runs. -/
theorem c8_input_error_propagates (st : Context) (rest : List Statement)
    (h : st.input = []) :
    Exec (.In :: rest) st (.err st) ∧
      ∀ r, Exec (.In :: rest) st r → r = .err st := by
  refine ⟨Exec.inErr _ _ h, ?_⟩
  intro r hr
  cases hr with
  | inOk _ _ _ b rest' hb _ => rw [h] at hb; cases hb
  | inErr _ _ _ => rfl

/-- C8, witness: concrete empty-input state. -/
theorem c8_witness :
    Exec [.In] (Context.init []) (.err (Context.init [])) :=
  (c8_input_error_propagates (Context.init []) [] rfl).1

/-! ### Basic facts about the growable-tape operations -/

theorem getD_append_replicate_zero (l : List Nat) (k i : Nat) :
    (l ++ List.replicate k 0).getD i 0 = l.getD i 0 := by
  rw [List.getD_eq_getElem?_getD, List.getD_eq_getElem?_getD, List.getElem?_append]
  split
  · rfl
  · rw [show l[i]? = none from List.getElem?_eq_none (by omega),
      List.getElem?_replicate]
    split <;> rfl

theorem adv_idx (st : Context) (a : Nat) : (st.adv a).idx = st.idx + a := rfl

theorem adv_input (st : Context) (a : Nat) : (st.adv a).input = st.input := rfl

theorem adv_output (st : Context) (a : Nat) : (st.adv a).output = st.output := rfl

theorem length_adv (st : Context) (a : Nat) :
    (st.adv a).data.length = max st.data.length (st.idx + a + 1) := by
  simp only [Context.adv]
  split
  · simp only [List.length_append, List.length_replicate]; omega
  · omega

theorem idx_lt_length_adv (st : Context) (a : Nat) :
    (st.adv a).idx < (st.adv a).data.length := by
  rw [length_adv]
  have : (st.adv a).idx = st.idx + a := rfl
  omega

theorem view_adv (st : Context) (a i : Nat) : view (st.adv a) i = view st i := by
  simp only [view, Context.adv]
  split
  · exact getD_append_replicate_zero _ _ _
  · rfl

theorem ret_idx (st : Context) (a : Nat) : (st.ret a).idx = st.idx - a := rfl

theorem ret_data (st : Context) (a : Nat) : (st.ret a).data = st.data := rfl

theorem view_ret (st : Context) (a i : Nat) : view (st.ret a) i = view st i := rfl

theorem setCur_idx (st : Context) (v : Nat) : (st.setCur v).idx = st.idx := rfl

theorem length_setCur (st : Context) (v : Nat) :
    (st.setCur v).data.length = st.data.length := by
  simp [Context.setCur]

theorem view_setCur (st : Context) (h : st.idx < st.data.length) (v i : Nat) :
    view (st.setCur v) i = if i = st.idx then v else view st i := by
  simp only [view, Context.setCur, List.getD_eq_getElem?_getD, List.getElem?_set]
  rcases eq_or_ne st.idx i with he | hne
  · subst he; simp [h]
  · simp [hne, Ne.symm hne]

theorem set_getD_self (l : List Nat) (n : Nat) (h : n < l.length) :
    l.set n (l.getD n 0) = l := by
  apply List.ext_getElem?
  intro i
  rw [List.getElem?_set]
  rcases eq_or_ne n i with rfl | hne
  · rw [if_pos rfl, if_pos h, List.getD_eq_getElem _ _ h, List.getElem?_eq_getElem h]
  · rw [if_neg hne]

theorem setCur_cur_self (st : Context) (h : st.idx < st.data.length) :
    st.setCur st.cur = st := by
  show { st with data := st.data.set st.idx (st.data.getD st.idx 0) } = st
  rw [set_getD_self _ _ h]

theorem wrap8_lt (z : Int) : wrap8 z < 256 := by
  unfold wrap8; omega

theorem incMany_idx (st : Context) (a : Nat) : (st.incMany a).idx = st.idx := rfl

theorem length_incMany (st : Context) (a : Nat) :
    (st.incMany a).data.length = st.data.length := length_setCur _ _

theorem decMany_idx (st : Context) (a : Nat) : (st.decMany a).idx = st.idx := rfl

theorem length_decMany (st : Context) (a : Nat) :
    (st.decMany a).data.length = st.data.length := length_setCur _ _

theorem clearStep_idx (st : Context) : st.clearStep.idx = st.idx := rfl

theorem length_clearStep (st : Context) :
    st.clearStep.data.length = st.data.length := length_setCur _ _

theorem readByte_idx (st : Context) (b : Nat) (rest : List Nat) :
    (st.readByte b rest).idx = st.idx := rfl

theorem length_readByte (st : Context) (b : Nat) (rest : List Nat) :
    (st.readByte b rest).data.length = st.data.length := by
  simp [Context.readByte]

theorem outStep_idx (st : Context) : st.outStep.idx = st.idx := rfl

theorem outStep_data (st : Context) : st.outStep.data = st.data := rfl

theorem addOff_idx (st : Context) (mul : Int) (off : Nat) :
    (st.addOff mul off).idx = st.idx := by
  simp only [Context.addOff, ret_idx, setCur_idx, adv_idx]
  omega

theorem length_addOff (st : Context) (mul : Int) (off : Nat) :
    (st.addOff mul off).data.length = max st.data.length (st.idx + off + 1) := by
  simp only [Context.addOff, ret_data, length_setCur, length_adv]

/-! ### Preservation of the pointer bound and of well-formedness -/

theorem exec_ptr {L : List Statement} {st : Context} {r : Outcome}
    (h : Exec L st r) (hw : st.idx < st.data.length) :
    (r.state).idx < (r.state).data.length := by
  induction h with
  | nil st => exact hw
  | next a l st r _ ih => exact ih (idx_lt_length_adv st a)
  | prev a l st r _ ih =>
    refine ih ?_
    rw [ret_idx, ret_data]; omega
  | inc a l st r _ ih =>
    refine ih ?_
    rw [incMany_idx, length_incMany]; exact hw
  | dec a l st r _ ih =>
    refine ih ?_
    rw [decMany_idx, length_decMany]; exact hw
  | out l st r _ ih =>
    refine ih ?_
    rw [outStep_idx, outStep_data]; exact hw
  | inOk l st r b rest _ _ ih =>
    refine ih ?_
    rw [readByte_idx, length_readByte]; exact hw
  | inErr l st _ => exact hw
  | clear l st r _ ih =>
    refine ih ?_
    rw [clearStep_idx, length_clearStep]; exact hw
  | addOff mul off l st r _ ih =>
    refine ih ?_
    rw [addOff_idx, length_addOff]; omega
  | loopDone b l st r _ _ ih => exact ih hw
  | loopIter b l st st1 r _ _ _ ih1 ih2 => exact ih2 (ih1 hw)
  | loopErr b l st e _ _ ih => exact ih hw
  | szDone k l st r _ _ ih => exact ih hw
  | szIter k l st r _ _ ih =>
    refine ih ?_
    simp only [Context.szStep]
    split
    · rw [ret_idx, ret_data]; omega
    · exact idx_lt_length_adv st _

theorem wf_adv (st : Context) (a : Nat) (hw : Wf st) : Wf (st.adv a) := by
  refine ⟨idx_lt_length_adv st a, ?_⟩
  show ∀ c ∈ (st.adv a).data, c < 256
  simp only [Context.adv]
  split
  · intro c hc
    rcases List.mem_append.mp hc with h | h
    · exact hw.2 c h
    · rw [List.eq_of_mem_replicate h]; norm_num
  · exact hw.2

theorem wf_ret (st : Context) (a : Nat) (hw : Wf st) : Wf (st.ret a) := by
  refine ⟨?_, hw.2⟩
  rw [ret_idx, ret_data]
  have := hw.1; omega

theorem wf_setCur (st : Context) (v : Nat) (hv : v < 256) (hw : Wf st) :
    Wf (st.setCur v) := by
  refine ⟨?_, ?_⟩
  · rw [length_setCur, setCur_idx]; exact hw.1
  · intro c hc
    rcases List.mem_or_eq_of_mem_set hc with h | rfl
    · exact hw.2 c h
    · exact hv

theorem wf_szStep (st : Context) (k : Int) (hw : Wf st) : Wf (st.szStep k) := by
  simp only [Context.szStep]
  split
  · exact wf_ret st _ hw
  · exact wf_adv st _ hw

theorem wf_addOff (st : Context) (mul : Int) (off : Nat) (hw : Wf st) :
    Wf (st.addOff mul off) :=
  wf_ret _ _ (wf_setCur _ _ (wrap8_lt _) (wf_adv st off hw))

theorem exec_wf {L : List Statement} {st : Context} {r : Outcome}
    (h : Exec L st r) (hw : Wf st) : Wf (r.state) := by
  induction h with
  | nil st => exact hw
  | next a l st r _ ih => exact ih (wf_adv st a hw)
  | prev a l st r _ ih => exact ih (wf_ret st a hw)
  | inc a l st r _ ih =>
    exact ih (wf_setCur st _ (Nat.mod_lt _ (by norm_num)) hw)
  | dec a l st r _ ih => exact ih (wf_setCur st _ (wrap8_lt _) hw)
  | out l st r _ ih => exact ih ⟨hw.1, hw.2⟩
  | inOk l st r b rest _ _ ih =>
    refine ih ⟨?_, ?_⟩
    · rw [readByte_idx, length_readByte]; exact hw.1
    · intro c hc
      rcases List.mem_or_eq_of_mem_set hc with h | rfl
      · exact hw.2 c h
      · exact Nat.mod_lt _ (by norm_num)
  | inErr l st _ => exact hw
  | clear l st r _ ih => exact ih (wf_setCur st 0 (by norm_num) hw)
  | addOff mul off l st r _ ih => exact ih (wf_addOff st mul off hw)
  | loopDone b l st r _ _ ih => exact ih hw
  | loopIter b l st st1 r _ _ _ ih1 ih2 => exact ih2 (ih1 hw)
  | loopErr b l st e _ _ ih => exact ih hw
  | szDone k l st r _ _ ih => exact ih hw
  | szIter k l st r _ _ ih => exact ih (wf_szStep st k hw)

/-- C9.  The growable interpreter's initial state (tape `[0]`, pointer 0)
satisfies `0 ≤ pointer < tape_length`, and executing any IR sequence from any
state satisfying the bound yields an outcome whose state satisfies it again —
each constructor of the big-step derivation corresponds to one operation, so
the bound holds at every instruction boundary of the execution. -/
theorem c9_pointer_in_bounds :
    (∀ inp, (Context.init inp).idx < (Context.init inp).data.length) ∧
      ∀ (L : List Statement) (st : Context) (r : Outcome),
        Exec L st r → st.idx < st.data.length →
          (r.state).idx < (r.state).data.length := by
  refine ⟨fun inp => by simp [Context.init], ?_⟩
  intro L st r h hw
  exact exec_ptr h hw

/-- C9, witness: the preservation statement applied to a concrete execution
from the initial state. -/
theorem c9_witness :
    ((Context.init []).adv 2).idx < ((Context.init []).adv 2).data.length :=
  c9_pointer_in_bounds.2 [.Next 2] (Context.init []) (.ok ((Context.init []).adv 2))
    (Exec.next _ _ _ _ (Exec.nil _)) (by decide)

/-! ### Modular-arithmetic facts about cell stores -/

theorem cur_eq_view (st : Context) : st.cur = view st st.idx := rfl

theorem i8val_modEq (c : Nat) : i8val c ≡ (c : Int) [ZMOD 256] := by
  show i8val c % 256 = (c : Int) % 256
  unfold i8val
  split <;> omega

theorem wrap8_modEq (z : Int) : ((wrap8 z : Nat) : Int) ≡ z [ZMOD 256] := by
  show ((wrap8 z : Nat) : Int) % 256 = z % 256
  unfold wrap8
  omega

theorem wrapW_modEq (w : Nat) (z : Int) :
    ((wrapW w z : Nat) : Int) ≡ z [ZMOD (2 ^ w)] := by
  show ((wrapW w z : Nat) : Int) % 2 ^ w = z % 2 ^ w
  unfold wrapW
  rw [Int.toNat_of_nonneg (Int.emod_nonneg _ (by positivity))]
  exact Int.emod_emod_of_dvd z dvd_rfl

theorem sgnv_modEq (w : Nat) (c : Nat) : sgnv w c ≡ (c : Int) [ZMOD (2 ^ w)] := by
  unfold sgnv
  have hcast : ((c % 2 ^ w : Nat) : Int) = (c : Int) % ((2 : Int) ^ w) := by
    push_cast
    rfl
  have hbase : ((c % 2 ^ w : Nat) : Int) ≡ (c : Int) [ZMOD (2 ^ w)] := by
    rw [hcast]
    exact Int.emod_emod_of_dvd _ dvd_rfl
  split
  · exact hbase
  · have hz : ((2 : Int) ^ w) ≡ 0 [ZMOD (2 ^ w)] :=
      Int.modEq_zero_iff_dvd.mpr dvd_rfl
    simpa using hbase.sub hz

theorem view_addOff (st : Context) (k : Int) (n : Nat) (i : Nat) :
    view (st.addOff k n) i =
      if i = st.idx + n
      then wrap8 (i8val (view st (st.idx + n)) + k * i8val (view st st.idx))
      else view st i := by
  simp only [Context.addOff, view_ret]
  rw [view_setCur _ (idx_lt_length_adv st n)]
  have h1 : (st.adv n).cur = view st (st.idx + n) := by
    rw [cur_eq_view, adv_idx, view_adv]
  rw [h1, adv_idx, cur_eq_view]
  split
  · rfl
  · rw [view_adv]

theorem getD_set_eq (l : List Nat) (n v : Nat) (h : n < l.length) :
    (l.set n v).getD n 0 = v := by
  rw [List.getD_eq_getElem?_getD, List.getElem?_set_eq_of_lt _ h]
  rfl

theorem getD_set_ne (l : List Nat) (n m v : Nat) (h : n ≠ m) :
    (l.set n v).getD m 0 = l.getD m 0 := by
  rw [List.getD_eq_getElem?_getD, List.getElem?_set_ne h, ← List.getD_eq_getElem?_getD]

/-- C7.  `AddOffset{mul = k, offset = n}` followed by `Clear`, for `n ≥ 1`.
Growable interpreter (cell width 8): from any state, the two statements
execute successfully; afterwards `cell[pos] = 0`,
`cell[pos+n] ≡ old cell[pos+n] + k·old cell[pos] (mod 2^8)`, and the pointer
is unchanged.  Fixed interpreter, for each cell width `w ∈ {8,16,32,64}`:
same result modulo `2^w`, provided `pos + n` is within the tape (out of
bounds, the fixed interpreter panics rather than executes). -/
theorem c7_addoffset_then_clear :
    (∀ (st : Context) (k : Int) (n : Nat), 1 ≤ n →
      ∃ st', Exec [.AddOffset k n, .Clear] st (.ok st') ∧ st'.idx = st.idx ∧
        view st' st.idx = 0 ∧
        ((view st' (st.idx + n) : Nat) : Int) ≡
          (view st (st.idx + n) : Nat) + k * (view st st.idx : Nat) [ZMOD (2 ^ 8)]) ∧
    (∀ w : Nat, (w = 8 ∨ w = 16 ∨ w = 32 ∨ w = 64) →
      ∀ (st : StaticCtx) (k : Int) (n : Nat), 1 ≤ n → st.pos + n < st.data.length →
      ∃ st', SExec w [.AddOffset k n, .Clear] st (.ok st') ∧ st'.pos = st.pos ∧
        st'.data.getD st.pos 0 = 0 ∧
        ((st'.data.getD (st.pos + n) 0 : Nat) : Int) ≡
          (st.data.getD (st.pos + n) 0 : Nat) + k * (st.data.getD st.pos 0 : Nat)
            [ZMOD (2 ^ w)]) := by
  constructor
  · intro st k n hn
    refine ⟨(st.addOff k n).clearStep,
      Exec.addOff _ _ _ _ _ (Exec.clear _ _ _ (Exec.nil _)), ?_, ?_, ?_⟩
    · rw [clearStep_idx, addOff_idx]
    · have hlt : (st.addOff k n).idx < (st.addOff k n).data.length := by
        rw [addOff_idx, length_addOff]; omega
      show view ((st.addOff k n).setCur 0) st.idx = 0
      rw [view_setCur _ hlt, addOff_idx, if_pos rfl]
    · have hlt : (st.addOff k n).idx < (st.addOff k n).data.length := by
        rw [addOff_idx, length_addOff]; omega
      show ((view ((st.addOff k n).setCur 0) (st.idx + n) : Nat) : Int) ≡ _ [ZMOD _]
      rw [view_setCur _ hlt, addOff_idx, if_neg (by omega), view_addOff, if_pos rfl]
      have h := (wrap8_modEq (i8val (view st (st.idx + n)) + k * i8val (view st st.idx))).trans
        ((i8val_modEq (view st (st.idx + n))).add ((i8val_modEq (view st st.idx)).mul_left k))
      exact h
  · intro w hwid st k n hn hbound
    have hpos : st.pos < st.data.length := by omega
    have hc : st.data[st.pos]? = some (st.data.getD st.pos 0) := by
      rw [List.getElem?_eq_getElem hpos, List.getD_eq_getElem _ _ hpos]
    have hd : st.data[st.pos + n]? = some (st.data.getD (st.pos + n) 0) := by
      rw [List.getElem?_eq_getElem hbound, List.getD_eq_getElem _ _ hbound]
    set c := st.data.getD st.pos 0 with hc0
    set d := st.data.getD (st.pos + n) 0 with hd0
    set X := wrapW w (sgnv w c * k + sgnv w d) with hX
    have h1 : st.addOffS w k n =
        some { st with data := st.data.set (st.pos + n) X } := by
      rw [StaticCtx.addOffS, hc, hd]
    have h2 : ({ st with data := st.data.set (st.pos + n) X } : StaticCtx).clearS =
        some { st with data := (st.data.set (st.pos + n) X).set st.pos 0 } := by
      rw [StaticCtx.clearS]
      simp only [List.length_set]
      rw [if_pos hpos]
    refine ⟨_, SExec.addOffOk _ _ _ _ _ _ h1 (SExec.clearOk _ _ _ _ h2 (SExec.nil _)),
      rfl, ?_, ?_⟩
    · show ((st.data.set (st.pos + n) X).set st.pos 0).getD st.pos 0 = 0
      rw [getD_set_eq]
      simp only [List.length_set]
      exact hpos
    · show (((((st.data.set (st.pos + n) X).set st.pos 0).getD (st.pos + n) 0 : Nat)) : Int) ≡
        _ [ZMOD _]
      rw [getD_set_ne _ _ _ _ (by omega), getD_set_eq _ _ _ hbound]
      have h := (wrapW_modEq w (sgnv w c * k + sgnv w d)).trans
        (((sgnv_modEq w c).mul_right k).add (sgnv_modEq w d))
      have he : (c : Int) * k + d = (d : Int) + k * c := by ring
      rwa [he] at h

/-- C7, witness: both parts at width 8 on concrete two-cell contents
(`cell[0] = 5`, `cell[1] = 7`, `k = 3`, `n = 1`). -/
theorem c7_witness :
    (∃ st', Exec [.AddOffset 3 1, .Clear] ⟨[5, 7], 0, [], []⟩ (.ok st') ∧
      st'.idx = 0 ∧ view st' 0 = 0 ∧
      ((view st' 1 : Nat) : Int) ≡ (7 : Nat) + 3 * (5 : Nat) [ZMOD (2 ^ 8)]) ∧
    ∃ st', SExec 8 [.AddOffset 3 1, .Clear] ⟨[5, 7], 0, [], []⟩ (.ok st') ∧
      st'.pos = 0 ∧ st'.data.getD 0 0 = 0 ∧
      ((st'.data.getD 1 0 : Nat) : Int) ≡ (7 : Nat) + 3 * (5 : Nat) [ZMOD (2 ^ 8)] := by
  constructor
  · exact c7_addoffset_then_clear.1 ⟨[5, 7], 0, [], []⟩ 3 1 (by decide)
  · exact c7_addoffset_then_clear.2 8 (Or.inl rfl) ⟨[5, 7], 0, [], []⟩ 3 1 (by decide)
      (by decide)

/-! ### Termination analysis of the `constant_fold` scan -/

theorem drop_length_takeWhile (p : Statement → Bool) (l : List Statement) :
    l.drop (l.takeWhile p).length = l.dropWhile p := by
  induction l with
  | nil => rfl
  | cons a r ih =>
    by_cases h : p a <;> simp [List.takeWhile_cons, List.dropWhile_cons, h, ih]

theorem dropWhile_head_false (p : Statement → Bool) (l : List Statement)
    (x : Statement) (rest : List Statement) (h : l.dropWhile p = x :: rest) :
    p x = false := by
  induction l with
  | nil => cases h
  | cons a r ih =>
    rw [List.dropWhile_cons] at h
    split at h
    · exact ih h
    · rename_i hpa
      cases h
      simpa using hpa

theorem szS_pos (s : Statement) : 1 ≤ szS s := by
  cases s <;> simp [szS]

theorem szL_pos (l : List Statement) : 1 ≤ szL l := by
  cases l with
  | nil => simp [szL]
  | cons s r =>
    have := szS_pos s
    simp [szL]
    omega

theorem szL_drop_le (l : List Statement) : ∀ k, szL (l.drop k) ≤ szL l := by
  induction l with
  | nil => intro k; cases k <;> simp [szL]
  | cons s r ih =>
    intro k
    cases k with
    | zero => simp
    | succ k =>
      have h1 := ih k
      have h2 := szS_pos s
      simp only [List.drop_succ_cons, szL]
      omega

theorem szL_drop_lt (s : Statement) (r : List Statement) (k : Nat) (hk : 1 ≤ k) :
    szL ((s :: r).drop k) < szL (s :: r) := by
  obtain ⟨k', rfl⟩ : ∃ k', k = k' + 1 := ⟨k - 1, by omega⟩
  have h1 := szL_drop_le r k'
  have h2 := szS_pos s
  simp only [List.drop_succ_cons, szL]
  omega

theorem foldableL_iff_mem (l : List Statement) :
    foldableL l = true ↔ ∀ s ∈ l, foldableS s = true := by
  induction l with
  | nil => simp [foldableL]
  | cons s r ih =>
    simp [foldableL, ih]

theorem cfF_addOffset_none (fuel : Nat) (m : Int) (o : Nat) (rest : List Statement) :
    cfF fuel (.AddOffset m o :: rest) = none := by
  induction fuel with
  | zero => rfl
  | succ fuel ih => simpa [cfF] using ih

theorem cfF_searchZero_none (fuel : Nat) (k : Int) (rest : List Statement) :
    cfF fuel (.SearchZero k :: rest) = none := by
  induction fuel with
  | zero => rfl
  | succ fuel ih => simpa [cfF] using ih

theorem cfF_enough (fuel : Nat) : ∀ L : List Statement,
    foldableL L → szL L ≤ fuel → (cfF fuel L).isSome := by
  induction fuel with
  | zero =>
    intro L _ hsz
    have := szL_pos L
    omega
  | succ fuel ih =>
    intro L hf hsz
    cases L with
    | nil => simp [cfF]
    | cons s rest =>
      simp only [foldableL, Bool.and_eq_true] at hf
      obtain ⟨hf1, hf2⟩ := hf
      simp only [szL] at hsz
      have hrpos := szL_pos rest
      cases s with
      | Loop l =>
        simp only [foldableS] at hf1
        simp only [szS] at hsz
        have hlpos := szL_pos l
        obtain ⟨fl, hfl⟩ := Option.isSome_iff_exists.mp (ih l hf1 (by omega))
        obtain ⟨fr, hfr⟩ := Option.isSome_iff_exists.mp (ih rest hf2 (by omega))
        simp [cfF, hfl, hfr]
      | In =>
        simp only [szS] at hsz
        obtain ⟨fr, hfr⟩ := Option.isSome_iff_exists.mp (ih rest hf2 (by omega))
        simp [cfF, hfr]
      | Out =>
        simp only [szS] at hsz
        obtain ⟨fr, hfr⟩ := Option.isSome_iff_exists.mp (ih rest hf2 (by omega))
        simp [cfF, hfr]
      | Clear =>
        simp only [szS] at hsz
        obtain ⟨fr, hfr⟩ := Option.isSome_iff_exists.mp (ih rest hf2 (by omega))
        simp [cfF, hfr]
      | Next a =>
        have hc1 : 1 ≤ ((Statement.Next a :: rest).takeWhile Statement.isNext).length := by
          simp [List.takeWhile_cons, Statement.isNext]
        have hlt := szL_drop_lt (Statement.Next a) rest _ hc1
        have hfold : foldableL ((Statement.Next a :: rest).drop
            ((Statement.Next a :: rest).takeWhile Statement.isNext).length) := by
          rw [foldableL_iff_mem]
          intro x hx
          have hmem := List.mem_of_mem_drop hx
          rcases List.mem_cons.mp hmem with rfl | ht'
          · rfl
          · exact (foldableL_iff_mem rest).mp hf2 x ht'
        have hs1 : szS (Statement.Next a) = 1 := rfl
        have he : szL (Statement.Next a :: rest) = szS (Statement.Next a) + szL rest := rfl
        have hdone := ih _ hfold (by omega)
        obtain ⟨t, ht⟩ := Option.isSome_iff_exists.mp hdone
        simp [cfF, ht]
      | Prev a =>
        have hc1 : 1 ≤ ((Statement.Prev a :: rest).takeWhile Statement.isPrev).length := by
          simp [List.takeWhile_cons, Statement.isPrev]
        have hlt := szL_drop_lt (Statement.Prev a) rest _ hc1
        have hfold : foldableL ((Statement.Prev a :: rest).drop
            ((Statement.Prev a :: rest).takeWhile Statement.isPrev).length) := by
          rw [foldableL_iff_mem]
          intro x hx
          have hmem := List.mem_of_mem_drop hx
          rcases List.mem_cons.mp hmem with rfl | ht'
          · rfl
          · exact (foldableL_iff_mem rest).mp hf2 x ht'
        have hs1 : szS (Statement.Prev a) = 1 := rfl
        have he : szL (Statement.Prev a :: rest) = szS (Statement.Prev a) + szL rest := rfl
        have hdone := ih _ hfold (by omega)
        obtain ⟨t, ht⟩ := Option.isSome_iff_exists.mp hdone
        simp [cfF, ht]
      | Dec a =>
        have hc1 : 1 ≤ ((Statement.Dec a :: rest).takeWhile Statement.isDec).length := by
          simp [List.takeWhile_cons, Statement.isDec]
        have hlt := szL_drop_lt (Statement.Dec a) rest _ hc1
        have hfold : foldableL ((Statement.Dec a :: rest).drop
            ((Statement.Dec a :: rest).takeWhile Statement.isDec).length) := by
          rw [foldableL_iff_mem]
          intro x hx
          have hmem := List.mem_of_mem_drop hx
          rcases List.mem_cons.mp hmem with rfl | ht'
          · rfl
          · exact (foldableL_iff_mem rest).mp hf2 x ht'
        have hs1 : szS (Statement.Dec a) = 1 := rfl
        have he : szL (Statement.Dec a :: rest) = szS (Statement.Dec a) + szL rest := rfl
        have hdone := ih _ hfold (by omega)
        obtain ⟨t, ht⟩ := Option.isSome_iff_exists.mp hdone
        simp [cfF, ht]
      | Inc a =>
        have hc1 : 1 ≤ ((Statement.Inc a :: rest).takeWhile Statement.isInc).length := by
          simp [List.takeWhile_cons, Statement.isInc]
        have hlt := szL_drop_lt (Statement.Inc a) rest _ hc1
        have hfold : foldableL ((Statement.Inc a :: rest).drop
            ((Statement.Inc a :: rest).takeWhile Statement.isInc).length) := by
          rw [foldableL_iff_mem]
          intro x hx
          have hmem := List.mem_of_mem_drop hx
          rcases List.mem_cons.mp hmem with rfl | ht'
          · rfl
          · exact (foldableL_iff_mem rest).mp hf2 x ht'
        have hs1 : szS (Statement.Inc a) = 1 := rfl
        have he : szL (Statement.Inc a :: rest) = szS (Statement.Inc a) + szL rest := rfl
        have hdone := ih _ hfold (by omega)
        obtain ⟨t, ht⟩ := Option.isSome_iff_exists.mp hdone
        simp [cfF, ht]
      | AddOffset m o => simp [foldableS] at hf1
      | SearchZero k => simp [foldableS] at hf1

theorem isNext_foldable (s : Statement) (h : s.isNext = true) : foldableS s = true := by
  cases s <;> first
  | rfl
  | simp [Statement.isNext] at h

theorem isPrev_foldable (s : Statement) (h : s.isPrev = true) : foldableS s = true := by
  cases s <;> first
  | rfl
  | simp [Statement.isPrev] at h

theorem isInc_foldable (s : Statement) (h : s.isInc = true) : foldableS s = true := by
  cases s <;> first
  | rfl
  | simp [Statement.isInc] at h

theorem isDec_foldable (s : Statement) (h : s.isDec = true) : foldableS s = true := by
  cases s <;> first
  | rfl
  | simp [Statement.isDec] at h

theorem mem_takeWhile_or_drop (p : Statement → Bool) (l : List Statement)
    (x : Statement) (hx : x ∈ l) :
    x ∈ l.takeWhile p ∨ x ∈ l.drop (l.takeWhile p).length := by
  rw [drop_length_takeWhile]
  rw [← List.takeWhile_append_dropWhile p l] at hx
  exact List.mem_append.mp hx

theorem cfF_some_foldable (fuel : Nat) : ∀ (L T : List Statement),
    cfF fuel L = some T → foldableL L = true := by
  induction fuel with
  | zero => intro L T h; cases h
  | succ fuel ih =>
    intro L T h
    cases L with
    | nil => rfl
    | cons s rest =>
      cases s with
      | Loop l =>
        simp only [cfF, Option.bind_eq_bind, Option.bind_eq_some, Option.pure_def,
          Option.some.injEq] at h
        obtain ⟨fl, hfl, fr, hfr, _⟩ := h
        simp only [foldableL, foldableS, Bool.and_eq_true]
        exact ⟨ih l fl hfl, ih rest fr hfr⟩
      | In =>
        simp only [cfF, Option.map_eq_some'] at h
        obtain ⟨fr, hfr, _⟩ := h
        simp only [foldableL, foldableS, Bool.and_eq_true]
        exact ⟨trivial, ih rest fr hfr⟩
      | Out =>
        simp only [cfF, Option.map_eq_some'] at h
        obtain ⟨fr, hfr, _⟩ := h
        simp only [foldableL, foldableS, Bool.and_eq_true]
        exact ⟨trivial, ih rest fr hfr⟩
      | Clear =>
        simp only [cfF, Option.map_eq_some'] at h
        obtain ⟨fr, hfr, _⟩ := h
        simp only [foldableL, foldableS, Bool.and_eq_true]
        exact ⟨trivial, ih rest fr hfr⟩
      | Next a =>
        simp only [cfF, Option.map_eq_some'] at h
        obtain ⟨fr, hfr, _⟩ := h
        have hdrop := ih _ fr hfr
        rw [foldableL_iff_mem]
        intro x hx
        rcases mem_takeWhile_or_drop Statement.isNext _ x hx with hmem | hmem
        · exact isNext_foldable x (List.mem_takeWhile_imp hmem)
        · exact (foldableL_iff_mem _).mp hdrop x hmem
      | Prev a =>
        simp only [cfF, Option.map_eq_some'] at h
        obtain ⟨fr, hfr, _⟩ := h
        have hdrop := ih _ fr hfr
        rw [foldableL_iff_mem]
        intro x hx
        rcases mem_takeWhile_or_drop Statement.isPrev _ x hx with hmem | hmem
        · exact isPrev_foldable x (List.mem_takeWhile_imp hmem)
        · exact (foldableL_iff_mem _).mp hdrop x hmem
      | Dec a =>
        simp only [cfF, Option.map_eq_some'] at h
        obtain ⟨fr, hfr, _⟩ := h
        have hdrop := ih _ fr hfr
        rw [foldableL_iff_mem]
        intro x hx
        rcases mem_takeWhile_or_drop Statement.isDec _ x hx with hmem | hmem
        · exact isDec_foldable x (List.mem_takeWhile_imp hmem)
        · exact (foldableL_iff_mem _).mp hdrop x hmem
      | Inc a =>
        simp only [cfF, Option.map_eq_some'] at h
        obtain ⟨fr, hfr, _⟩ := h
        have hdrop := ih _ fr hfr
        rw [foldableL_iff_mem]
        intro x hx
        rcases mem_takeWhile_or_drop Statement.isInc _ x hx with hmem | hmem
        · exact isInc_foldable x (List.mem_takeWhile_imp hmem)
        · exact (foldableL_iff_mem _).mp hdrop x hmem
      | AddOffset m o => rw [cfF_addOffset_none] at h; cases h
      | SearchZero k => rw [cfF_searchZero_none] at h; cases h

/-- C10.  `constant_fold` terminates on every input drawn (at every nesting
depth) from the eight scan-handled variants (the parser-producible ones plus
`Clear`); on a sequence headed by `AddOffset` or `SearchZero` the scan loop's
cursor is advanced by no branch, so the scan runs forever — it fails for
every amount of fuel — and any input containing such a node anywhere makes
`constant_fold` diverge. -/
theorem c10_constant_fold_termination :
    (∀ S : List Statement, foldableL S = true → (constant_fold S).isSome) ∧
      (∀ (fuel : Nat) (m : Int) (o : Nat) (rest : List Statement),
        cfF fuel (.AddOffset m o :: rest) = none) ∧
      (∀ (fuel : Nat) (k : Int) (rest : List Statement),
        cfF fuel (.SearchZero k :: rest) = none) ∧
      (∀ S : List Statement, foldableL S = false → constant_fold S = none) := by
  refine ⟨?_, cfF_addOffset_none, cfF_searchZero_none, ?_⟩
  · intro S hf
    exact cfF_enough (szL S) S hf le_rfl
  · intro S hf
    cases h : constant_fold S with
    | none => rfl
    | some T =>
      have := cfF_some_foldable (szL S) S T h
      rw [hf] at this
      cases this

/-- C10, witness: termination on a concrete parser-producible sequence. -/
theorem c10_witness :
    (constant_fold [.Inc 1, .Loop [.Dec 1], .Out]).isSome :=
  c10_constant_fold_termination.1 [.Inc 1, .Loop [.Dec 1], .Out] (by decide)

/-! ### Shape of `constant_fold` outputs (for the idempotence analysis) -/

theorem kindOf_eq_zero_iff (s : Statement) : kindOf s = 0 ↔ s.isNext = true := by
  cases s <;> simp [kindOf, Statement.isNext]

theorem kindOf_eq_one_iff (s : Statement) : kindOf s = 1 ↔ s.isPrev = true := by
  cases s <;> simp [kindOf, Statement.isPrev]

theorem kindOf_eq_two_iff (s : Statement) : kindOf s = 2 ↔ s.isInc = true := by
  cases s <;> simp [kindOf, Statement.isInc]

theorem kindOf_eq_three_iff (s : Statement) : kindOf s = 3 ↔ s.isDec = true := by
  cases s <;> simp [kindOf, Statement.isDec]

theorem coalescedL_cons_split (s : Statement) (r : List Statement)
    (h : coalescedL (s :: r) = true) : coalescedS s = true ∧ coalescedL r = true := by
  cases r with
  | nil => exact ⟨h, rfl⟩
  | cons t r' =>
    simp only [coalescedL, Bool.and_eq_true] at h
    exact ⟨h.1.2, h.2⟩

theorem coalescedL_cons_of (s : Statement) (T : List Statement)
    (hs : coalescedS s = true) (hT : coalescedL T = true)
    (hadj : ∀ t r, T = t :: r → kindOf s ≠ kindOf t ∨ 4 ≤ kindOf s) :
    coalescedL (s :: T) = true := by
  cases T with
  | nil => exact hs
  | cons t r =>
    simp only [coalescedL, Bool.and_eq_true, Bool.or_eq_true, decide_eq_true_eq]
    exact ⟨⟨hadj t r rfl, hs⟩, hT⟩

theorem cfF_head_kind (fuel : Nat) (M : List Statement) (t : Statement)
    (r : List Statement) (h : cfF fuel M = some (t :: r)) :
    ∃ s' M', M = s' :: M' ∧ kindOf t = kindOf s' := by
  cases fuel with
  | zero => cases h
  | succ fuel =>
    cases M with
    | nil => simp [cfF] at h
    | cons s M' =>
      refine ⟨s, M', rfl, ?_⟩
      cases s with
      | Loop l =>
        simp only [cfF, Option.bind_eq_bind, Option.bind_eq_some, Option.pure_def,
          Option.some.injEq] at h
        obtain ⟨fl, _, fr, _, hout⟩ := h
        cases hout
        rfl
      | In =>
        simp only [cfF, Option.map_eq_some'] at h
        obtain ⟨fr, _, hout⟩ := h
        cases hout
        rfl
      | Out =>
        simp only [cfF, Option.map_eq_some'] at h
        obtain ⟨fr, _, hout⟩ := h
        cases hout
        rfl
      | Clear =>
        simp only [cfF, Option.map_eq_some'] at h
        obtain ⟨fr, _, hout⟩ := h
        cases hout
        rfl
      | Next a =>
        simp only [cfF, Option.map_eq_some'] at h
        obtain ⟨fr, _, hout⟩ := h
        cases hout
        rfl
      | Prev a =>
        simp only [cfF, Option.map_eq_some'] at h
        obtain ⟨fr, _, hout⟩ := h
        cases hout
        rfl
      | Dec a =>
        simp only [cfF, Option.map_eq_some'] at h
        obtain ⟨fr, _, hout⟩ := h
        cases hout
        rfl
      | Inc a =>
        simp only [cfF, Option.map_eq_some'] at h
        obtain ⟨fr, _, hout⟩ := h
        cases hout
        rfl
      | AddOffset m o => rw [cfF_addOffset_none] at h; cases h
      | SearchZero k => rw [cfF_searchZero_none] at h; cases h

theorem cfF_coalesced (fuel : Nat) : ∀ L T, cfF fuel L = some T →
    coalescedL T = true := by
  induction fuel with
  | zero => intro L T h; cases h
  | succ fuel ih =>
    intro L T h
    cases L with
    | nil =>
      simp only [cfF, Option.some.injEq] at h
      subst h
      rfl
    | cons s rest =>
      cases s with
      | Loop l =>
        simp only [cfF, Option.bind_eq_bind, Option.bind_eq_some, Option.pure_def,
          Option.some.injEq] at h
        obtain ⟨fl, hfl, fr, hfr, hout⟩ := h
        subst hout
        refine coalescedL_cons_of _ _ ?_ (ih _ _ hfr) ?_
        · simpa [coalescedS] using ih _ _ hfl
        · intro t r _
          right
          simp [kindOf]
      | In =>
        simp only [cfF, Option.map_eq_some'] at h
        obtain ⟨fr, hfr, hout⟩ := h
        subst hout
        refine coalescedL_cons_of _ _ rfl (ih _ _ hfr) ?_
        intro t r _
        right
        simp [kindOf]
      | Out =>
        simp only [cfF, Option.map_eq_some'] at h
        obtain ⟨fr, hfr, hout⟩ := h
        subst hout
        refine coalescedL_cons_of _ _ rfl (ih _ _ hfr) ?_
        intro t r _
        right
        simp [kindOf]
      | Clear =>
        simp only [cfF, Option.map_eq_some'] at h
        obtain ⟨fr, hfr, hout⟩ := h
        subst hout
        refine coalescedL_cons_of _ _ rfl (ih _ _ hfr) ?_
        intro t r _
        right
        simp [kindOf]
      | Next a =>
        simp only [cfF, Option.map_eq_some'] at h
        obtain ⟨fr, hfr, hout⟩ := h
        subst hout
        refine coalescedL_cons_of _ _ rfl (ih _ _ hfr) ?_
        intro t r hfr_eq
        subst hfr_eq
        obtain ⟨s', M', hM, hk⟩ := cfF_head_kind fuel _ t r hfr
        rw [drop_length_takeWhile] at hM
        have hflag := dropWhile_head_false Statement.isNext _ s' M' hM
        left
        rw [hk]
        show kindOf (Statement.Next _) ≠ kindOf s'
        intro hcontra
        have : kindOf s' = 0 := by rw [← hcontra]; rfl
        rw [kindOf_eq_zero_iff] at this
        rw [this] at hflag
        cases hflag
      | Prev a =>
        simp only [cfF, Option.map_eq_some'] at h
        obtain ⟨fr, hfr, hout⟩ := h
        subst hout
        refine coalescedL_cons_of _ _ rfl (ih _ _ hfr) ?_
        intro t r hfr_eq
        subst hfr_eq
        obtain ⟨s', M', hM, hk⟩ := cfF_head_kind fuel _ t r hfr
        rw [drop_length_takeWhile] at hM
        have hflag := dropWhile_head_false Statement.isPrev _ s' M' hM
        left
        rw [hk]
        show kindOf (Statement.Prev _) ≠ kindOf s'
        intro hcontra
        have : kindOf s' = 1 := by rw [← hcontra]; rfl
        rw [kindOf_eq_one_iff] at this
        rw [this] at hflag
        cases hflag
      | Dec a =>
        simp only [cfF, Option.map_eq_some'] at h
        obtain ⟨fr, hfr, hout⟩ := h
        subst hout
        refine coalescedL_cons_of _ _ rfl (ih _ _ hfr) ?_
        intro t r hfr_eq
        subst hfr_eq
        obtain ⟨s', M', hM, hk⟩ := cfF_head_kind fuel _ t r hfr
        rw [drop_length_takeWhile] at hM
        have hflag := dropWhile_head_false Statement.isDec _ s' M' hM
        left
        rw [hk]
        show kindOf (Statement.Dec _) ≠ kindOf s'
        intro hcontra
        have : kindOf s' = 3 := by rw [← hcontra]; rfl
        rw [kindOf_eq_three_iff] at this
        rw [this] at hflag
        cases hflag
      | Inc a =>
        simp only [cfF, Option.map_eq_some'] at h
        obtain ⟨fr, hfr, hout⟩ := h
        subst hout
        refine coalescedL_cons_of _ _ rfl (ih _ _ hfr) ?_
        intro t r hfr_eq
        subst hfr_eq
        obtain ⟨s', M', hM, hk⟩ := cfF_head_kind fuel _ t r hfr
        rw [drop_length_takeWhile] at hM
        have hflag := dropWhile_head_false Statement.isInc _ s' M' hM
        left
        rw [hk]
        show kindOf (Statement.Inc _) ≠ kindOf s'
        intro hcontra
        have : kindOf s' = 2 := by rw [← hcontra]; rfl
        rw [kindOf_eq_two_iff] at this
        rw [this] at hflag
        cases hflag
      | AddOffset m o => rw [cfF_addOffset_none] at h; cases h
      | SearchZero k => rw [cfF_searchZero_none] at h; cases h

theorem cfF_output_foldable (fuel : Nat) : ∀ L T, cfF fuel L = some T →
    foldableL T = true := by
  induction fuel with
  | zero => intro L T h; cases h
  | succ fuel ih =>
    intro L T h
    cases L with
    | nil =>
      simp only [cfF, Option.some.injEq] at h
      subst h
      rfl
    | cons s rest =>
      cases s with
      | Loop l =>
        simp only [cfF, Option.bind_eq_bind, Option.bind_eq_some, Option.pure_def,
          Option.some.injEq] at h
        obtain ⟨fl, hfl, fr, hfr, hout⟩ := h
        subst hout
        simp only [foldableL, foldableS, Bool.and_eq_true]
        exact ⟨ih _ _ hfl, ih _ _ hfr⟩
      | In =>
        simp only [cfF, Option.map_eq_some'] at h
        obtain ⟨fr, hfr, hout⟩ := h
        subst hout
        simp only [foldableL, foldableS, Bool.and_eq_true, Bool.true_and]
        exact ih _ _ hfr
      | Out =>
        simp only [cfF, Option.map_eq_some'] at h
        obtain ⟨fr, hfr, hout⟩ := h
        subst hout
        simp only [foldableL, foldableS, Bool.and_eq_true, Bool.true_and]
        exact ih _ _ hfr
      | Clear =>
        simp only [cfF, Option.map_eq_some'] at h
        obtain ⟨fr, hfr, hout⟩ := h
        subst hout
        simp only [foldableL, foldableS, Bool.and_eq_true, Bool.true_and]
        exact ih _ _ hfr
      | Next a =>
        simp only [cfF, Option.map_eq_some'] at h
        obtain ⟨fr, hfr, hout⟩ := h
        subst hout
        simp only [foldableL, foldableS, Bool.and_eq_true, Bool.true_and]
        exact ih _ _ hfr
      | Prev a =>
        simp only [cfF, Option.map_eq_some'] at h
        obtain ⟨fr, hfr, hout⟩ := h
        subst hout
        simp only [foldableL, foldableS, Bool.and_eq_true, Bool.true_and]
        exact ih _ _ hfr
      | Dec a =>
        simp only [cfF, Option.map_eq_some'] at h
        obtain ⟨fr, hfr, hout⟩ := h
        subst hout
        simp only [foldableL, foldableS, Bool.and_eq_true, Bool.true_and]
        exact ih _ _ hfr
      | Inc a =>
        simp only [cfF, Option.map_eq_some'] at h
        obtain ⟨fr, hfr, hout⟩ := h
        subst hout
        simp only [foldableL, foldableS, Bool.and_eq_true, Bool.true_and]
        exact ih _ _ hfr
      | AddOffset m o => rw [cfF_addOffset_none] at h; cases h
      | SearchZero k => rw [cfF_searchZero_none] at h; cases h

theorem oneS_kind (s : Statement) : kindOf (oneS s) = kindOf s := by
  cases s <;> rfl

mutual
theorem oneS_coalesced (s : Statement) (h : coalescedS s = true) :
    coalescedS (oneS s) = true := by
  cases s with
  | Loop l => exact oneL_coalesced l h
  | Next a => rfl
  | Prev a => rfl
  | Inc a => rfl
  | Dec a => rfl
  | Out => rfl
  | In => rfl
  | Clear => rfl
  | AddOffset m o => rfl
  | SearchZero k => rfl

theorem oneL_coalesced (T : List Statement) (h : coalescedL T = true) :
    coalescedL (oneL T) = true := by
  cases T with
  | nil => rfl
  | cons s r =>
    cases r with
    | nil => exact oneS_coalesced s h
    | cons t r' =>
      simp only [coalescedL, Bool.and_eq_true, Bool.or_eq_true, decide_eq_true_eq] at h
      obtain ⟨⟨hadj, hs⟩, hrest⟩ := h
      show coalescedL (oneS s :: oneS t :: oneL r') = true
      simp only [coalescedL, Bool.and_eq_true, Bool.or_eq_true, decide_eq_true_eq,
        oneS_kind]
      exact ⟨⟨hadj, oneS_coalesced s hs⟩, oneL_coalesced (t :: r') hrest⟩
end

mutual
theorem oneS_foldable (s : Statement) (h : foldableS s = true) :
    foldableS (oneS s) = true := by
  cases s with
  | Loop l => exact oneL_foldable l h
  | Next a => rfl
  | Prev a => rfl
  | Inc a => rfl
  | Dec a => rfl
  | Out => rfl
  | In => rfl
  | Clear => rfl
  | AddOffset m o => cases h
  | SearchZero k => cases h

theorem oneL_foldable (T : List Statement) (h : foldableL T = true) :
    foldableL (oneL T) = true := by
  cases T with
  | nil => rfl
  | cons s r =>
    simp only [foldableL, Bool.and_eq_true] at h
    show (foldableS (oneS s) && foldableL (oneL r)) = true
    simp only [Bool.and_eq_true]
    exact ⟨oneS_foldable s h.1, oneL_foldable r h.2⟩
end

mutual
theorem oneS_idem (s : Statement) : oneS (oneS s) = oneS s := by
  cases s with
  | Loop l => show Statement.Loop (oneL (oneL l)) = Statement.Loop (oneL l)
              rw [oneL_idem]
  | Next a => rfl
  | Prev a => rfl
  | Inc a => rfl
  | Dec a => rfl
  | Out => rfl
  | In => rfl
  | Clear => rfl
  | AddOffset m o => rfl
  | SearchZero k => rfl

theorem oneL_idem (T : List Statement) : oneL (oneL T) = oneL T := by
  cases T with
  | nil => rfl
  | cons s r =>
    show oneS (oneS s) :: oneL (oneL r) = oneS s :: oneL r
    rw [oneS_idem, oneL_idem]
end

theorem cfF_oneL (fuel : Nat) : ∀ T : List Statement,
    foldableL T = true → coalescedL T = true → szL T ≤ fuel →
    cfF fuel T = some (oneL T) := by
  induction fuel with
  | zero =>
    intro T _ _ hsz
    have := szL_pos T
    omega
  | succ fuel ih =>
    intro T hf hco hsz
    cases T with
    | nil => rfl
    | cons s rest =>
      simp only [foldableL, Bool.and_eq_true] at hf
      obtain ⟨hf1, hf2⟩ := hf
      obtain ⟨hcs, hcr⟩ := coalescedL_cons_split s rest hco
      simp only [szL] at hsz
      have hrpos := szL_pos rest
      cases s with
      | Loop l =>
        simp only [foldableS] at hf1
        simp only [coalescedS] at hcs
        simp only [szS] at hsz
        have hlpos := szL_pos l
        have h1 := ih l hf1 hcs (by omega)
        have h2 := ih rest hf2 hcr (by omega)
        simp [cfF, h1, h2, oneL, oneS]
      | In =>
        have hs1 : szS Statement.In = 1 := rfl
        have h2 := ih rest hf2 hcr (by omega)
        simp [cfF, h2, oneL, oneS]
      | Out =>
        have hs1 : szS Statement.Out = 1 := rfl
        have h2 := ih rest hf2 hcr (by omega)
        simp [cfF, h2, oneL, oneS]
      | Clear =>
        have hs1 : szS Statement.Clear = 1 := rfl
        have h2 := ih rest hf2 hcr (by omega)
        simp [cfF, h2, oneL, oneS]
      | Next a =>
        have htw : (Statement.Next a :: rest).takeWhile Statement.isNext =
            [Statement.Next a] := by
          cases rest with
          | nil => rfl
          | cons t r' =>
            simp only [coalescedL, Bool.and_eq_true, Bool.or_eq_true,
              decide_eq_true_eq] at hco
            have hadj := hco.1.1
            have hkt : kindOf t ≠ 0 := by
              rcases hadj with h | h
              · intro hc; exact h (by rw [hc]; rfl)
              · simp [kindOf] at h
            have hnt : t.isNext = false := by
              rcases hb : t.isNext with _ | _
              · rfl
              · exact absurd ((kindOf_eq_zero_iff t).mpr hb) hkt
            rw [List.takeWhile_cons]
            show Statement.Next a :: List.takeWhile Statement.isNext (t :: r') =
              [Statement.Next a]
            rw [List.takeWhile_cons, if_neg (by simp [hnt])]
        have hs1 : szS (Statement.Next a) = 1 := rfl
        have h2 := ih rest hf2 hcr (by omega)
        simp only [cfF, htw]
        simp [h2, oneL, oneS]
      | Prev a =>
        have htw : (Statement.Prev a :: rest).takeWhile Statement.isPrev =
            [Statement.Prev a] := by
          cases rest with
          | nil => rfl
          | cons t r' =>
            simp only [coalescedL, Bool.and_eq_true, Bool.or_eq_true,
              decide_eq_true_eq] at hco
            have hadj := hco.1.1
            have hkt : kindOf t ≠ 1 := by
              rcases hadj with h | h
              · intro hc; exact h (by rw [hc]; rfl)
              · simp [kindOf] at h
            have hnt : t.isPrev = false := by
              rcases hb : t.isPrev with _ | _
              · rfl
              · exact absurd ((kindOf_eq_one_iff t).mpr hb) hkt
            rw [List.takeWhile_cons]
            show Statement.Prev a :: List.takeWhile Statement.isPrev (t :: r') =
              [Statement.Prev a]
            rw [List.takeWhile_cons, if_neg (by simp [hnt])]
        have hs1 : szS (Statement.Prev a) = 1 := rfl
        have h2 := ih rest hf2 hcr (by omega)
        simp only [cfF, htw]
        simp [h2, oneL, oneS]
      | Dec a =>
        have htw : (Statement.Dec a :: rest).takeWhile Statement.isDec =
            [Statement.Dec a] := by
          cases rest with
          | nil => rfl
          | cons t r' =>
            simp only [coalescedL, Bool.and_eq_true, Bool.or_eq_true,
              decide_eq_true_eq] at hco
            have hadj := hco.1.1
            have hkt : kindOf t ≠ 3 := by
              rcases hadj with h | h
              · intro hc; exact h (by rw [hc]; rfl)
              · simp [kindOf] at h
            have hnt : t.isDec = false := by
              rcases hb : t.isDec with _ | _
              · rfl
              · exact absurd ((kindOf_eq_three_iff t).mpr hb) hkt
            rw [List.takeWhile_cons]
            show Statement.Dec a :: List.takeWhile Statement.isDec (t :: r') =
              [Statement.Dec a]
            rw [List.takeWhile_cons, if_neg (by simp [hnt])]
        have hs1 : szS (Statement.Dec a) = 1 := rfl
        have h2 := ih rest hf2 hcr (by omega)
        simp only [cfF, htw]
        simp [h2, oneL, oneS]
      | Inc a =>
        have htw : (Statement.Inc a :: rest).takeWhile Statement.isInc =
            [Statement.Inc a] := by
          cases rest with
          | nil => rfl
          | cons t r' =>
            simp only [coalescedL, Bool.and_eq_true, Bool.or_eq_true,
              decide_eq_true_eq] at hco
            have hadj := hco.1.1
            have hkt : kindOf t ≠ 2 := by
              rcases hadj with h | h
              · intro hc; exact h (by rw [hc]; rfl)
              · simp [kindOf] at h
            have hnt : t.isInc = false := by
              rcases hb : t.isInc with _ | _
              · rfl
              · exact absurd ((kindOf_eq_two_iff t).mpr hb) hkt
            rw [List.takeWhile_cons]
            show Statement.Inc a :: List.takeWhile Statement.isInc (t :: r') =
              [Statement.Inc a]
            rw [List.takeWhile_cons, if_neg (by simp [hnt])]
        have hs1 : szS (Statement.Inc a) = 1 := rfl
        have h2 := ih rest hf2 hcr (by omega)
        simp only [cfF, htw]
        simp [h2, oneL, oneS]
      | AddOffset m o => cases hf1
      | SearchZero k => cases hf1

/-- C4, counterexample.  `constant_fold` is not idempotent: its scan counts
**statements** in a run, not the sum of their counts, so a second application
collapses the counted node `Next 2` (a run of one statement) back to `Next 1`:
`constant_fold [Next 1, Next 1] = [Next 2]` but
`constant_fold [Next 2] = [Next 1] ≠ [Next 2]`. -/
theorem c4_counterexample :
    constant_fold [.Next 1, .Next 1] = some [.Next 2] ∧
      constant_fold [.Next 2] = some [.Next 1] ∧
      ¬ ([Statement.Next 1] = [Statement.Next 2]) := by
  refine ⟨rfl, rfl, by simp⟩

/-- C4, amended.  `constant_fold` is not idempotent, but a second application
reaches a fixed point: whenever `constant_fold S` terminates with `T`,
`constant_fold T` terminates with some `U` (namely `T` with every counted
payload replaced by 1) and `constant_fold U = U`. -/
theorem c4_amended (S T : List Statement) (h : constant_fold S = some T) :
    ∃ U, constant_fold T = some U ∧ constant_fold U = some U := by
  have hfold : foldableL T = true := cfF_output_foldable (szL S) S T h
  have hco : coalescedL T = true := cfF_coalesced (szL S) S T h
  refine ⟨oneL T, ?_, ?_⟩
  · exact cfF_oneL (szL T) T hfold hco le_rfl
  · have h2 : constant_fold (oneL T) = some (oneL (oneL T)) :=
      cfF_oneL (szL (oneL T)) (oneL T) (oneL_foldable T hfold)
        (oneL_coalesced T hco) le_rfl
    rwa [oneL_idem] at h2

/-- C4, witness: the amended statement at the counterexample input. -/
theorem c4_witness :
    ∃ U, constant_fold [Statement.Next 2] = some U ∧ constant_fold U = some U :=
  c4_amended [.Next 1, .Next 1] [.Next 2] rfl

/-! ### Observational equivalence of growable-tape states -/

theorem obsEq_refl (st : Context) : ObsEq st st := ⟨rfl, rfl, rfl, fun _ => rfl⟩

theorem obsEq_symm {st1 st2 : Context} (h : ObsEq st1 st2) : ObsEq st2 st1 :=
  ⟨h.1.symm, h.2.1.symm, h.2.2.1.symm, fun i => (h.2.2.2 i).symm⟩

theorem obsEq_trans {st1 st2 st3 : Context} (h : ObsEq st1 st2) (h2 : ObsEq st2 st3) :
    ObsEq st1 st3 :=
  ⟨h.1.trans h2.1, h.2.1.trans h2.2.1, h.2.2.1.trans h2.2.2.1,
    fun i => (h.2.2.2 i).trans (h2.2.2.2 i)⟩

theorem cur_eq_of_obsEq {st1 st2 : Context} (h : ObsEq st1 st2) : st1.cur = st2.cur := by
  rw [cur_eq_view, cur_eq_view, h.1]
  exact h.2.2.2 st2.idx

theorem obsEq_adv {st1 st2 : Context} (h : ObsEq st1 st2) (a : Nat) :
    ObsEq (st1.adv a) (st2.adv a) := by
  refine ⟨?_, h.2.1, h.2.2.1, ?_⟩
  · rw [adv_idx, adv_idx, h.1]
  · intro i
    rw [view_adv, view_adv]
    exact h.2.2.2 i

theorem obsEq_ret {st1 st2 : Context} (h : ObsEq st1 st2) (a : Nat) :
    ObsEq (st1.ret a) (st2.ret a) := by
  refine ⟨?_, h.2.1, h.2.2.1, ?_⟩
  · rw [ret_idx, ret_idx, h.1]
  · intro i
    rw [view_ret, view_ret]
    exact h.2.2.2 i

theorem obsEq_setCur {st1 st2 : Context} (h : ObsEq st1 st2)
    (h1 : st1.idx < st1.data.length) (h2 : st2.idx < st2.data.length) (v : Nat) :
    ObsEq (st1.setCur v) (st2.setCur v) := by
  refine ⟨?_, h.2.1, h.2.2.1, ?_⟩
  · rw [setCur_idx, setCur_idx, h.1]
  · intro i
    rw [view_setCur _ h1, view_setCur _ h2, h.1]
    split
    · rfl
    · exact h.2.2.2 i

theorem obsEq_incMany {st1 st2 : Context} (h : ObsEq st1 st2)
    (h1 : st1.idx < st1.data.length) (h2 : st2.idx < st2.data.length) (a : Nat) :
    ObsEq (st1.incMany a) (st2.incMany a) := by
  unfold Context.incMany
  rw [cur_eq_of_obsEq h]
  exact obsEq_setCur h h1 h2 _

theorem obsEq_decMany {st1 st2 : Context} (h : ObsEq st1 st2)
    (h1 : st1.idx < st1.data.length) (h2 : st2.idx < st2.data.length) (a : Nat) :
    ObsEq (st1.decMany a) (st2.decMany a) := by
  unfold Context.decMany
  rw [cur_eq_of_obsEq h]
  exact obsEq_setCur h h1 h2 _

theorem obsEq_clearStep {st1 st2 : Context} (h : ObsEq st1 st2)
    (h1 : st1.idx < st1.data.length) (h2 : st2.idx < st2.data.length) :
    ObsEq st1.clearStep st2.clearStep :=
  obsEq_setCur h h1 h2 0

theorem obsEq_outStep {st1 st2 : Context} (h : ObsEq st1 st2) :
    ObsEq st1.outStep st2.outStep := by
  refine ⟨h.1, h.2.1, ?_, h.2.2.2⟩
  show st1.output ++ _ = st2.output ++ _
  rw [h.2.2.1, cur_eq_of_obsEq h]

theorem view_readByte (st : Context) (h : st.idx < st.data.length)
    (b : Nat) (rest : List Nat) (i : Nat) :
    view (st.readByte b rest) i = if i = st.idx then b % 256 else view st i := by
  simp only [view, Context.readByte, List.getD_eq_getElem?_getD, List.getElem?_set]
  rcases eq_or_ne st.idx i with he | hne
  · subst he; simp [h]
  · simp [hne, Ne.symm hne]

theorem obsEq_readByte {st1 st2 : Context} (h : ObsEq st1 st2)
    (h1 : st1.idx < st1.data.length) (h2 : st2.idx < st2.data.length)
    (b : Nat) (rest : List Nat) :
    ObsEq (st1.readByte b rest) (st2.readByte b rest) := by
  refine ⟨h.1, rfl, h.2.2.1, ?_⟩
  intro i
  rw [view_readByte _ h1, view_readByte _ h2, h.1]
  split
  · rfl
  · exact h.2.2.2 i

theorem obsEq_addOff {st1 st2 : Context} (h : ObsEq st1 st2) (mul : Int) (off : Nat) :
    ObsEq (st1.addOff mul off) (st2.addOff mul off) := by
  show ObsEq
    (((st1.adv off).setCur (wrap8 (i8val (st1.adv off).cur + mul * i8val st1.cur))).ret off)
    (((st2.adv off).setCur (wrap8 (i8val (st2.adv off).cur + mul * i8val st2.cur))).ret off)
  rw [cur_eq_of_obsEq h, cur_eq_of_obsEq (obsEq_adv h off)]
  exact obsEq_ret (obsEq_setCur (obsEq_adv h off) (idx_lt_length_adv _ _)
    (idx_lt_length_adv _ _) _) off

theorem obsEq_szStep {st1 st2 : Context} (h : ObsEq st1 st2) (k : Int) :
    ObsEq (st1.szStep k) (st2.szStep k) := by
  unfold Context.szStep
  split
  · exact obsEq_ret h _
  · exact obsEq_adv h _

/-- Executions started in observationally equivalent well-formed states stay
in lock step and end observationally equivalent (for successful runs). -/
theorem exec_resp {L : List Statement} {st1 : Context} {r : Outcome}
    (h : Exec L st1 r) : ∀ t1, r = .ok t1 → ∀ st2, ObsEq st1 st2 →
    Wf st1 → Wf st2 → ∃ t2, Exec L st2 (.ok t2) ∧ ObsEq t1 t2 := by
  induction h with
  | nil st =>
    intro t1 hr st2 he _ _
    cases hr
    exact ⟨st2, Exec.nil _, he⟩
  | next a l st r _ ih =>
    intro t1 hr st2 he hw1 hw2
    obtain ⟨t2, hex, he2⟩ := ih t1 hr (st2.adv a) (obsEq_adv he a)
      (wf_adv _ _ hw1) (wf_adv _ _ hw2)
    exact ⟨t2, Exec.next _ _ _ _ hex, he2⟩
  | prev a l st r _ ih =>
    intro t1 hr st2 he hw1 hw2
    obtain ⟨t2, hex, he2⟩ := ih t1 hr (st2.ret a) (obsEq_ret he a)
      (wf_ret _ _ hw1) (wf_ret _ _ hw2)
    exact ⟨t2, Exec.prev _ _ _ _ hex, he2⟩
  | inc a l st r _ ih =>
    intro t1 hr st2 he hw1 hw2
    obtain ⟨t2, hex, he2⟩ := ih t1 hr (st2.incMany (a % 256))
      (obsEq_incMany he hw1.1 hw2.1 _)
      (wf_setCur _ _ (Nat.mod_lt _ (by norm_num)) hw1)
      (wf_setCur _ _ (Nat.mod_lt _ (by norm_num)) hw2)
    exact ⟨t2, Exec.inc _ _ _ _ hex, he2⟩
  | dec a l st r _ ih =>
    intro t1 hr st2 he hw1 hw2
    obtain ⟨t2, hex, he2⟩ := ih t1 hr (st2.decMany (a % 256))
      (obsEq_decMany he hw1.1 hw2.1 _)
      (wf_setCur _ _ (wrap8_lt _) hw1) (wf_setCur _ _ (wrap8_lt _) hw2)
    exact ⟨t2, Exec.dec _ _ _ _ hex, he2⟩
  | out l st r _ ih =>
    intro t1 hr st2 he hw1 hw2
    obtain ⟨t2, hex, he2⟩ := ih t1 hr st2.outStep (obsEq_outStep he) hw1 hw2
    exact ⟨t2, Exec.out _ _ _ hex, he2⟩
  | inOk l st r b rest hb _ ih =>
    intro t1 hr st2 he hw1 hw2
    have hb2 : st2.input = b :: rest := by rw [← he.2.1]; exact hb
    have hwr1 : Wf (st.readByte b rest) := by
      refine ⟨?_, ?_⟩
      · rw [readByte_idx, length_readByte]; exact hw1.1
      · intro c hc
        rcases List.mem_or_eq_of_mem_set hc with hmem | rfl
        · exact hw1.2 c hmem
        · exact Nat.mod_lt _ (by norm_num)
    have hwr2 : Wf (st2.readByte b rest) := by
      refine ⟨?_, ?_⟩
      · rw [readByte_idx, length_readByte]; exact hw2.1
      · intro c hc
        rcases List.mem_or_eq_of_mem_set hc with hmem | rfl
        · exact hw2.2 c hmem
        · exact Nat.mod_lt _ (by norm_num)
    obtain ⟨t2, hex, he2⟩ := ih t1 hr (st2.readByte b rest)
      (obsEq_readByte he hw1.1 hw2.1 b rest) hwr1 hwr2
    exact ⟨t2, Exec.inOk _ _ _ _ _ hb2 hex, he2⟩
  | inErr l st _ =>
    intro t1 hr
    cases hr
  | clear l st r _ ih =>
    intro t1 hr st2 he hw1 hw2
    obtain ⟨t2, hex, he2⟩ := ih t1 hr st2.clearStep (obsEq_clearStep he hw1.1 hw2.1)
      (wf_setCur _ _ (by norm_num) hw1) (wf_setCur _ _ (by norm_num) hw2)
    exact ⟨t2, Exec.clear _ _ _ hex, he2⟩
  | addOff mul off l st r _ ih =>
    intro t1 hr st2 he hw1 hw2
    obtain ⟨t2, hex, he2⟩ := ih t1 hr (st2.addOff mul off) (obsEq_addOff he mul off)
      (wf_addOff _ _ _ hw1) (wf_addOff _ _ _ hw2)
    exact ⟨t2, Exec.addOff _ _ _ _ _ hex, he2⟩
  | loopDone b l st r hcur _ ih =>
    intro t1 hr st2 he hw1 hw2
    obtain ⟨t2, hex, he2⟩ := ih t1 hr st2 he hw1 hw2
    refine ⟨t2, Exec.loopDone _ _ _ _ ?_ hex, he2⟩
    rw [← cur_eq_of_obsEq he]
    exact hcur
  | loopIter b l st st1 r hcur hbody _ ihb ihc =>
    intro t1 hr st2 he hw1 hw2
    obtain ⟨sb2, hexb, heb⟩ := ihb st1 rfl st2 he hw1 hw2
    obtain ⟨t2, hexc, hec⟩ := ihc t1 hr sb2 heb (exec_wf hbody hw1) (exec_wf hexb hw2)
    refine ⟨t2, Exec.loopIter _ _ _ _ _ ?_ hexb hexc, hec⟩
    rw [← cur_eq_of_obsEq he]
    exact hcur
  | loopErr b l st e _ _ _ =>
    intro t1 hr
    cases hr
  | szDone k l st r hcur _ ih =>
    intro t1 hr st2 he hw1 hw2
    obtain ⟨t2, hex, he2⟩ := ih t1 hr st2 he hw1 hw2
    refine ⟨t2, Exec.szDone _ _ _ _ ?_ hex, he2⟩
    rw [← cur_eq_of_obsEq he]
    exact hcur
  | szIter k l st r hcur _ ih =>
    intro t1 hr st2 he hw1 hw2
    obtain ⟨t2, hex, he2⟩ := ih t1 hr (st2.szStep k) (obsEq_szStep he k)
      (wf_szStep _ _ hw1) (wf_szStep _ _ hw2)
    refine ⟨t2, Exec.szIter _ _ _ _ ?_ hex, he2⟩
    rw [← cur_eq_of_obsEq he]
    exact hcur

/-! ### Soundness of `constant_fold` (exact semantic preservation on
parser-shaped input) -/

theorem ctx_eq {st1 st2 : Context} (h1 : st1.data = st2.data) (h2 : st1.idx = st2.idx)
    (h3 : st1.input = st2.input) (h4 : st1.output = st2.output) : st1 = st2 := by
  cases st1
  cases st2
  simp_all

theorem list_ext_getD (l1 l2 : List Nat) (hlen : l1.length = l2.length)
    (h : ∀ i, l1.getD i 0 = l2.getD i 0) : l1 = l2 := by
  apply List.ext_getElem?
  intro i
  rcases lt_or_le i l1.length with hi | hi
  · rw [List.getElem?_eq_getElem hi, List.getElem?_eq_getElem (hlen ▸ hi)]
    have hh := h i
    rw [List.getD_eq_getElem _ _ hi, List.getD_eq_getElem _ _ (hlen ▸ hi)] at hh
    exact congrArg some hh
  · rw [List.getElem?_eq_none hi, List.getElem?_eq_none (hlen ▸ hi)]

theorem adv_adv (st : Context) (a b : Nat) : (st.adv a).adv b = st.adv (a + b) := by
  apply ctx_eq
  · apply list_ext_getD
    · rw [length_adv, length_adv, length_adv, adv_idx]
      omega
    · intro i
      show view ((st.adv a).adv b) i = view (st.adv (a + b)) i
      rw [view_adv, view_adv, view_adv]
  · rw [adv_idx, adv_idx, adv_idx]
    omega
  · rfl
  · rfl

theorem ret_ret (st : Context) (a b : Nat) : (st.ret a).ret b = st.ret (a + b) := by
  refine ctx_eq rfl ?_ rfl rfl
  rw [ret_idx, ret_idx, ret_idx]
  omega

theorem setCur_oob (st : Context) (v : Nat) (h : st.data.length ≤ st.idx) :
    st.setCur v = st := by
  refine ctx_eq ?_ rfl rfl rfl
  exact List.set_eq_of_length_le h

theorem cur_setCur (st : Context) (v : Nat) (h : st.idx < st.data.length) :
    (st.setCur v).cur = v := by
  show (st.data.set st.idx v).getD st.idx 0 = v
  exact getD_set_eq _ _ _ h

theorem wrap8_eq_of_modEq {a b : Int} (h : a ≡ b [ZMOD 256]) : wrap8 a = wrap8 b := by
  unfold wrap8
  rw [show a % 256 = b % 256 from h]

theorem decMany_decMany (st : Context) (a b : Nat) :
    (st.decMany a).decMany b = st.decMany ((a + b) % 256) := by
  rcases lt_or_le st.idx st.data.length with hlt | hle
  · refine ctx_eq ?_ rfl rfl rfl
    show ((st.data.set st.idx _).set _ _) = st.data.set st.idx _
    rw [show (st.decMany a).idx = st.idx from rfl, List.set_set]
    congr 1
    have hcur : (st.decMany a).cur = wrap8 ((st.cur : Int) - a) := cur_setCur _ _ hlt
    rw [hcur]
    apply wrap8_eq_of_modEq
    have h1 : ((wrap8 ((st.cur : Int) - a) : Nat) : Int) ≡ (st.cur : Int) - a [ZMOD 256] :=
      wrap8_modEq _
    have h2 : (((a + b) % 256 : Nat) : Int) ≡ ((a + b : Nat) : Int) [ZMOD 256] := by
      show (((a + b) % 256 : Nat) : Int) % 256 = ((a + b : Nat) : Int) % 256
      omega
    calc ((wrap8 ((st.cur : Int) - a) : Nat) : Int) - b
        ≡ ((st.cur : Int) - a) - b [ZMOD 256] := h1.sub_right _
      _ = (st.cur : Int) - ((a + b : Nat) : Int) := by push_cast; ring
      _ ≡ (st.cur : Int) - (((a + b) % 256 : Nat) : Int) [ZMOD 256] :=
          (h2.symm).sub_left _
  · have h1 : st.decMany a = st := setCur_oob _ _ hle
    have h2 : st.decMany b = st := setCur_oob _ _ hle
    have h3 : st.decMany ((a + b) % 256) = st := setCur_oob _ _ hle
    rw [h1, h2, h3]

theorem incMany_incMany (st : Context) (a b : Nat) :
    (st.incMany a).incMany b = st.incMany ((a + b) % 256) := by
  rcases lt_or_le st.idx st.data.length with hlt | hle
  · refine ctx_eq ?_ rfl rfl rfl
    show ((st.data.set st.idx _).set _ _) = st.data.set st.idx _
    rw [show (st.incMany a).idx = st.idx from rfl, List.set_set]
    congr 1
    have hcur : (st.incMany a).cur = (st.cur + a) % 256 := cur_setCur _ _ hlt
    rw [hcur]
    omega
  · have h1 : st.incMany a = st := setCur_oob _ _ hle
    have h2 : st.incMany b = st := setCur_oob _ _ hle
    have h3 : st.incMany ((a + b) % 256) = st := setCur_oob _ _ hle
    rw [h1, h2, h3]

theorem run_next (tw : List Statement) (h : ∀ x ∈ tw, x = Statement.Next 1) :
    ∀ (tail : List Statement) (st : Context) (a : Nat) (r : Outcome),
      Exec (tw ++ tail) (st.adv a) r → Exec tail (st.adv (a + tw.length)) r := by
  induction tw with
  | nil =>
    intro tail st a r hx
    simpa using hx
  | cons x tw' ih =>
    intro tail st a r hx
    have hx1 : x = Statement.Next 1 := h x (by simp)
    subst hx1
    cases hx with
    | next _ _ _ _ hprem =>
      rw [adv_adv] at hprem
      have hrec := ih (fun y hy => h y (List.mem_cons_of_mem _ hy)) tail st (a + 1) r hprem
      have harith : a + 1 + tw'.length = a + (Statement.Next 1 :: tw').length := by
        simp [List.length_cons]
        omega
      rwa [harith] at hrec

theorem run_prev (tw : List Statement) (h : ∀ x ∈ tw, x = Statement.Prev 1) :
    ∀ (tail : List Statement) (st : Context) (a : Nat) (r : Outcome),
      Exec (tw ++ tail) (st.ret a) r → Exec tail (st.ret (a + tw.length)) r := by
  induction tw with
  | nil =>
    intro tail st a r hx
    simpa using hx
  | cons x tw' ih =>
    intro tail st a r hx
    have hx1 : x = Statement.Prev 1 := h x (by simp)
    subst hx1
    cases hx with
    | prev _ _ _ _ hprem =>
      rw [ret_ret] at hprem
      have hrec := ih (fun y hy => h y (List.mem_cons_of_mem _ hy)) tail st (a + 1) r hprem
      have harith : a + 1 + tw'.length = a + (Statement.Prev 1 :: tw').length := by
        simp [List.length_cons]
        omega
      rwa [harith] at hrec

theorem run_dec (tw : List Statement) (h : ∀ x ∈ tw, x = Statement.Dec 1) :
    ∀ (tail : List Statement) (st : Context) (a : Nat) (r : Outcome),
      Exec (tw ++ tail) (st.decMany (a % 256)) r →
      Exec tail (st.decMany ((a + tw.length) % 256)) r := by
  induction tw with
  | nil =>
    intro tail st a r hx
    simpa using hx
  | cons x tw' ih =>
    intro tail st a r hx
    have hx1 : x = Statement.Dec 1 := h x (by simp)
    subst hx1
    cases hx with
    | dec _ _ _ _ hprem =>
      rw [decMany_decMany] at hprem
      have hmod : (a % 256 + 1 % 256) % 256 = (a + 1) % 256 := by omega
      rw [hmod] at hprem
      have hrec := ih (fun y hy => h y (List.mem_cons_of_mem _ hy)) tail st (a + 1) r hprem
      have harith : (a + 1 + tw'.length) % 256 =
          (a + (Statement.Dec 1 :: tw').length) % 256 := by
        simp [List.length_cons]
        omega
      rwa [harith] at hrec

theorem run_inc (tw : List Statement) (h : ∀ x ∈ tw, x = Statement.Inc 1) :
    ∀ (tail : List Statement) (st : Context) (a : Nat) (r : Outcome),
      Exec (tw ++ tail) (st.incMany (a % 256)) r →
      Exec tail (st.incMany ((a + tw.length) % 256)) r := by
  induction tw with
  | nil =>
    intro tail st a r hx
    simpa using hx
  | cons x tw' ih =>
    intro tail st a r hx
    have hx1 : x = Statement.Inc 1 := h x (by simp)
    subst hx1
    cases hx with
    | inc _ _ _ _ hprem =>
      rw [incMany_incMany] at hprem
      have hmod : (a % 256 + 1 % 256) % 256 = (a + 1) % 256 := by omega
      rw [hmod] at hprem
      have hrec := ih (fun y hy => h y (List.mem_cons_of_mem _ hy)) tail st (a + 1) r hprem
      have harith : (a + 1 + tw'.length) % 256 =
          (a + (Statement.Inc 1 :: tw').length) % 256 := by
        simp [List.length_cons]
        omega
      rwa [harith] at hrec

theorem exec_loop_congr (b b' l l' : List Statement)
    (hb : ∀ st r, Exec b st r → Exec b' st r)
    (hl : ∀ st r, Exec l st r → Exec l' st r) :
    ∀ st r, Exec (.Loop b :: l) st r → Exec (.Loop b' :: l') st r := by
  have H : ∀ L st r, Exec L st r → L = Statement.Loop b :: l →
      Exec (Statement.Loop b' :: l') st r := by
    intro L st r h
    induction h with
    | nil st => intro hL; simp at hL
    | next a l2 st r _ _ => intro hL; simp at hL
    | prev a l2 st r _ _ => intro hL; simp at hL
    | inc a l2 st r _ _ => intro hL; simp at hL
    | dec a l2 st r _ _ => intro hL; simp at hL
    | out l2 st r _ _ => intro hL; simp at hL
    | inOk l2 st r b2 rest _ _ _ => intro hL; simp at hL
    | inErr l2 st _ => intro hL; simp at hL
    | clear l2 st r _ _ => intro hL; simp at hL
    | addOff mul off l2 st r _ _ => intro hL; simp at hL
    | loopDone bb ll st r hcur hrest _ =>
      intro hL
      simp only [List.cons.injEq, Statement.Loop.injEq] at hL
      obtain ⟨rfl, rfl⟩ := hL
      exact Exec.loopDone _ _ _ _ hcur (hl _ _ hrest)
    | loopIter bb ll st st1 r hcur hbody _ _ ihc =>
      intro hL
      have hL2 := hL
      simp only [List.cons.injEq, Statement.Loop.injEq] at hL2
      obtain ⟨rfl, rfl⟩ := hL2
      exact Exec.loopIter _ _ _ _ _ hcur (hb _ _ hbody) (ihc hL)
    | loopErr bb ll st e hcur hbody _ =>
      intro hL
      simp only [List.cons.injEq, Statement.Loop.injEq] at hL
      obtain ⟨rfl, rfl⟩ := hL
      exact Exec.loopErr _ _ _ _ hcur (hb _ _ hbody)
    | szDone k l2 st r _ _ _ => intro hL; simp at hL
    | szIter k l2 st r _ _ _ => intro hL; simp at hL
  intro st r h
  exact H _ st r h rfl

theorem parserishL_iff_mem (l : List Statement) :
    parserishL l = true ↔ ∀ s ∈ l, parserishS s = true := by
  induction l with
  | nil => simp [parserishL]
  | cons s r ih => simp [parserishL, ih]

theorem parserish_next (x : Statement) (h1 : x.isNext = true)
    (h2 : parserishS x = true) : x = Statement.Next 1 := by
  cases x <;> simp_all [Statement.isNext, parserishS]

theorem parserish_prev (x : Statement) (h1 : x.isPrev = true)
    (h2 : parserishS x = true) : x = Statement.Prev 1 := by
  cases x <;> simp_all [Statement.isPrev, parserishS]

theorem parserish_dec (x : Statement) (h1 : x.isDec = true)
    (h2 : parserishS x = true) : x = Statement.Dec 1 := by
  cases x <;> simp_all [Statement.isDec, parserishS]

theorem parserish_inc (x : Statement) (h1 : x.isInc = true)
    (h2 : parserishS x = true) : x = Statement.Inc 1 := by
  cases x <;> simp_all [Statement.isInc, parserishS]

theorem cf_sound (fuel : Nat) : ∀ S F : List Statement, cfF fuel S = some F →
    parserishL S = true → ∀ st r, Exec S st r → Exec F st r := by
  induction fuel with
  | zero => intro S F h; cases h
  | succ fuel ih =>
    intro S F h hp st r hx
    cases S with
    | nil =>
      simp only [cfF, Option.some.injEq] at h
      subst h
      exact hx
    | cons s rest =>
      simp only [parserishL, Bool.and_eq_true] at hp
      obtain ⟨hp1, hp2⟩ := hp
      cases s with
      | Loop l =>
        simp only [cfF, Option.bind_eq_bind, Option.bind_eq_some, Option.pure_def,
          Option.some.injEq] at h
        obtain ⟨fl, hfl, fr, hfr, hout⟩ := h
        subst hout
        simp only [parserishS] at hp1
        exact exec_loop_congr l fl rest fr
          (fun st2 r2 hx2 => ih l fl hfl hp1 st2 r2 hx2)
          (fun st2 r2 hx2 => ih rest fr hfr hp2 st2 r2 hx2) st r hx
      | In =>
        simp only [cfF, Option.map_eq_some'] at h
        obtain ⟨fr, hfr, hout⟩ := h
        subst hout
        cases hx with
        | inOk _ _ _ b2 rest2 hb hprem =>
          exact Exec.inOk _ _ _ _ _ hb (ih rest fr hfr hp2 _ _ hprem)
        | inErr _ _ hb => exact Exec.inErr _ _ hb
      | Out =>
        simp only [cfF, Option.map_eq_some'] at h
        obtain ⟨fr, hfr, hout⟩ := h
        subst hout
        cases hx with
        | out _ _ _ hprem => exact Exec.out _ _ _ (ih rest fr hfr hp2 _ _ hprem)
      | Clear =>
        simp only [cfF, Option.map_eq_some'] at h
        obtain ⟨fr, hfr, hout⟩ := h
        subst hout
        cases hx with
        | clear _ _ _ hprem => exact Exec.clear _ _ _ (ih rest fr hfr hp2 _ _ hprem)
      | Next a =>
        have ha : a = 1 := by simpa [parserishS] using hp1
        subst ha
        simp only [cfF, Option.map_eq_some'] at h
        obtain ⟨fr, hfr, hout⟩ := h
        subst hout
        have hmemS : ∀ x ∈ Statement.Next 1 :: rest, parserishS x = true := by
          intro x hxm
          rcases List.mem_cons.mp hxm with rfl | hxm
          · rfl
          · exact (parserishL_iff_mem rest).mp hp2 x hxm
        have htw_all : ∀ x ∈ (Statement.Next 1 :: rest).takeWhile Statement.isNext,
            x = Statement.Next 1 := by
          intro x hxm
          exact parserish_next x (List.mem_takeWhile_imp hxm)
            (hmemS x ((List.takeWhile_sublist _).subset hxm))
        have htw_cons : (Statement.Next 1 :: rest).takeWhile Statement.isNext =
            Statement.Next 1 :: rest.takeWhile Statement.isNext := by
          rw [List.takeWhile_cons]
          rfl
        have hsplit : ((Statement.Next 1 :: rest).takeWhile Statement.isNext) ++
            ((Statement.Next 1 :: rest).drop
              ((Statement.Next 1 :: rest).takeWhile Statement.isNext).length) =
            Statement.Next 1 :: rest := by
          rw [drop_length_takeWhile, List.takeWhile_append_dropWhile]
        have hx2 : Exec (((Statement.Next 1 :: rest).takeWhile Statement.isNext) ++
            ((Statement.Next 1 :: rest).drop
              ((Statement.Next 1 :: rest).takeWhile Statement.isNext).length)) st r := by
          rw [hsplit]
          exact hx
        rw [htw_cons, List.cons_append] at hx2
        cases hx2 with
        | next _ _ _ _ hprem =>
          have hrun := run_next (rest.takeWhile Statement.isNext)
            (fun y hy => htw_all y (by rw [htw_cons]; exact List.mem_cons_of_mem _ hy))
            _ st 1 r hprem
          have hpdp : parserishL ((Statement.Next 1 :: rest).drop
              ((Statement.Next 1 :: rest).takeWhile Statement.isNext).length) = true := by
            rw [parserishL_iff_mem]
            intro x hxm
            exact hmemS x (List.mem_of_mem_drop hxm)
          have hdone := ih _ fr hfr hpdp _ _ hrun
          refine Exec.next _ _ _ _ ?_
          have hlen : ((Statement.Next 1 :: rest).takeWhile Statement.isNext).length =
              1 + (rest.takeWhile Statement.isNext).length := by
            rw [htw_cons]
            simp [List.length_cons]
            omega
          rw [hlen]
          exact hdone
      | Prev a =>
        have ha : a = 1 := by simpa [parserishS] using hp1
        subst ha
        simp only [cfF, Option.map_eq_some'] at h
        obtain ⟨fr, hfr, hout⟩ := h
        subst hout
        have hmemS : ∀ x ∈ Statement.Prev 1 :: rest, parserishS x = true := by
          intro x hxm
          rcases List.mem_cons.mp hxm with rfl | hxm
          · rfl
          · exact (parserishL_iff_mem rest).mp hp2 x hxm
        have htw_all : ∀ x ∈ (Statement.Prev 1 :: rest).takeWhile Statement.isPrev,
            x = Statement.Prev 1 := by
          intro x hxm
          exact parserish_prev x (List.mem_takeWhile_imp hxm)
            (hmemS x ((List.takeWhile_sublist _).subset hxm))
        have htw_cons : (Statement.Prev 1 :: rest).takeWhile Statement.isPrev =
            Statement.Prev 1 :: rest.takeWhile Statement.isPrev := by
          rw [List.takeWhile_cons]
          rfl
        have hsplit : ((Statement.Prev 1 :: rest).takeWhile Statement.isPrev) ++
            ((Statement.Prev 1 :: rest).drop
              ((Statement.Prev 1 :: rest).takeWhile Statement.isPrev).length) =
            Statement.Prev 1 :: rest := by
          rw [drop_length_takeWhile, List.takeWhile_append_dropWhile]
        have hx2 : Exec (((Statement.Prev 1 :: rest).takeWhile Statement.isPrev) ++
            ((Statement.Prev 1 :: rest).drop
              ((Statement.Prev 1 :: rest).takeWhile Statement.isPrev).length)) st r := by
          rw [hsplit]
          exact hx
        rw [htw_cons, List.cons_append] at hx2
        cases hx2 with
        | prev _ _ _ _ hprem =>
          have hrun := run_prev (rest.takeWhile Statement.isPrev)
            (fun y hy => htw_all y (by rw [htw_cons]; exact List.mem_cons_of_mem _ hy))
            _ st 1 r hprem
          have hpdp : parserishL ((Statement.Prev 1 :: rest).drop
              ((Statement.Prev 1 :: rest).takeWhile Statement.isPrev).length) = true := by
            rw [parserishL_iff_mem]
            intro x hxm
            exact hmemS x (List.mem_of_mem_drop hxm)
          have hdone := ih _ fr hfr hpdp _ _ hrun
          refine Exec.prev _ _ _ _ ?_
          have hlen : ((Statement.Prev 1 :: rest).takeWhile Statement.isPrev).length =
              1 + (rest.takeWhile Statement.isPrev).length := by
            rw [htw_cons]
            simp [List.length_cons]
            omega
          rw [hlen]
          exact hdone
      | Dec a =>
        have ha : a = 1 := by simpa [parserishS] using hp1
        subst ha
        simp only [cfF, Option.map_eq_some'] at h
        obtain ⟨fr, hfr, hout⟩ := h
        subst hout
        have hmemS : ∀ x ∈ Statement.Dec 1 :: rest, parserishS x = true := by
          intro x hxm
          rcases List.mem_cons.mp hxm with rfl | hxm
          · rfl
          · exact (parserishL_iff_mem rest).mp hp2 x hxm
        have htw_all : ∀ x ∈ (Statement.Dec 1 :: rest).takeWhile Statement.isDec,
            x = Statement.Dec 1 := by
          intro x hxm
          exact parserish_dec x (List.mem_takeWhile_imp hxm)
            (hmemS x ((List.takeWhile_sublist _).subset hxm))
        have htw_cons : (Statement.Dec 1 :: rest).takeWhile Statement.isDec =
            Statement.Dec 1 :: rest.takeWhile Statement.isDec := by
          rw [List.takeWhile_cons]
          rfl
        have hsplit : ((Statement.Dec 1 :: rest).takeWhile Statement.isDec) ++
            ((Statement.Dec 1 :: rest).drop
              ((Statement.Dec 1 :: rest).takeWhile Statement.isDec).length) =
            Statement.Dec 1 :: rest := by
          rw [drop_length_takeWhile, List.takeWhile_append_dropWhile]
        have hx2 : Exec (((Statement.Dec 1 :: rest).takeWhile Statement.isDec) ++
            ((Statement.Dec 1 :: rest).drop
              ((Statement.Dec 1 :: rest).takeWhile Statement.isDec).length)) st r := by
          rw [hsplit]
          exact hx
        rw [htw_cons, List.cons_append] at hx2
        cases hx2 with
        | dec _ _ _ _ hprem =>
          have hrun := run_dec (rest.takeWhile Statement.isDec)
            (fun y hy => htw_all y (by rw [htw_cons]; exact List.mem_cons_of_mem _ hy))
            _ st 1 r hprem
          have hpdp : parserishL ((Statement.Dec 1 :: rest).drop
              ((Statement.Dec 1 :: rest).takeWhile Statement.isDec).length) = true := by
            rw [parserishL_iff_mem]
            intro x hxm
            exact hmemS x (List.mem_of_mem_drop hxm)
          have hdone := ih _ fr hfr hpdp _ _ hrun
          refine Exec.dec _ _ _ _ ?_
          have hlen : ((Statement.Dec 1 :: rest).takeWhile Statement.isDec).length =
              1 + (rest.takeWhile Statement.isDec).length := by
            rw [htw_cons]
            simp [List.length_cons]
            omega
          rw [hlen]
          exact hdone
      | Inc a =>
        have ha : a = 1 := by simpa [parserishS] using hp1
        subst ha
        simp only [cfF, Option.map_eq_some'] at h
        obtain ⟨fr, hfr, hout⟩ := h
        subst hout
        have hmemS : ∀ x ∈ Statement.Inc 1 :: rest, parserishS x = true := by
          intro x hxm
          rcases List.mem_cons.mp hxm with rfl | hxm
          · rfl
          · exact (parserishL_iff_mem rest).mp hp2 x hxm
        have htw_all : ∀ x ∈ (Statement.Inc 1 :: rest).takeWhile Statement.isInc,
            x = Statement.Inc 1 := by
          intro x hxm
          exact parserish_inc x (List.mem_takeWhile_imp hxm)
            (hmemS x ((List.takeWhile_sublist _).subset hxm))
        have htw_cons : (Statement.Inc 1 :: rest).takeWhile Statement.isInc =
            Statement.Inc 1 :: rest.takeWhile Statement.isInc := by
          rw [List.takeWhile_cons]
          rfl
        have hsplit : ((Statement.Inc 1 :: rest).takeWhile Statement.isInc) ++
            ((Statement.Inc 1 :: rest).drop
              ((Statement.Inc 1 :: rest).takeWhile Statement.isInc).length) =
            Statement.Inc 1 :: rest := by
          rw [drop_length_takeWhile, List.takeWhile_append_dropWhile]
        have hx2 : Exec (((Statement.Inc 1 :: rest).takeWhile Statement.isInc) ++
            ((Statement.Inc 1 :: rest).drop
              ((Statement.Inc 1 :: rest).takeWhile Statement.isInc).length)) st r := by
          rw [hsplit]
          exact hx
        rw [htw_cons, List.cons_append] at hx2
        cases hx2 with
        | inc _ _ _ _ hprem =>
          have hrun := run_inc (rest.takeWhile Statement.isInc)
            (fun y hy => htw_all y (by rw [htw_cons]; exact List.mem_cons_of_mem _ hy))
            _ st 1 r hprem
          have hpdp : parserishL ((Statement.Inc 1 :: rest).drop
              ((Statement.Inc 1 :: rest).takeWhile Statement.isInc).length) = true := by
            rw [parserishL_iff_mem]
            intro x hxm
            exact hmemS x (List.mem_of_mem_drop hxm)
          have hdone := ih _ fr hfr hpdp _ _ hrun
          refine Exec.inc _ _ _ _ ?_
          have hlen : ((Statement.Inc 1 :: rest).takeWhile Statement.isInc).length =
              1 + (rest.takeWhile Statement.isInc).length := by
            rw [htw_cons]
            simp [List.length_cons]
            omega
          rw [hlen]
          exact hdone
      | AddOffset m o => cases hp1
      | SearchZero k => cases hp1

/-! ### Soundness of the peephole rewrites -/

theorem phLoop_cases (b fl : List Statement) :
    (phLoop b fl = [.Clear] ∧ (b = [.Dec 1] ∨ b = [.Inc 1])) ∨
    (∃ n k, b = [.Dec 1, .Next n, .Inc k, .Prev n] ∧
      phLoop b fl = [.AddOffset (k : Int) n, .Clear]) ∨
    (∃ n, b = [.Prev n] ∧ phLoop b fl = [.SearchZero ((n : Int) * (-1))]) ∨
    (∃ n, b = [.Next n] ∧ phLoop b fl = [.SearchZero (n : Int)]) ∨
    phLoop b fl = [.Loop fl] := by
  unfold phLoop
  split
  · exact Or.inl ⟨rfl, Or.inl rfl⟩
  · exact Or.inl ⟨rfl, Or.inr rfl⟩
  · rename_i n k m
    by_cases hnm : n = m
    · subst hnm
      rw [if_pos rfl]
      exact Or.inr (Or.inl ⟨n, k, rfl, rfl⟩)
    · rw [if_neg hnm]
      exact Or.inr (Or.inr (Or.inr (Or.inr rfl)))
  · rename_i n
    exact Or.inr (Or.inr (Or.inl ⟨n, rfl, rfl⟩))
  · rename_i n
    exact Or.inr (Or.inr (Or.inr (Or.inl ⟨n, rfl, rfl⟩)))
  · exact Or.inr (Or.inr (Or.inr (Or.inr rfl)))

theorem ret_zero (st : Context) : st.ret 0 = st := by
  refine ctx_eq rfl ?_ rfl rfl
  rw [ret_idx]
  omega

theorem adv_zero_of_wf (st : Context) (h : st.idx < st.data.length) :
    st.adv 0 = st := by
  refine ctx_eq ?_ ?_ rfl rfl
  · show (if st.data.length ≤ st.idx + 0 then _ else st.data) = st.data
    rw [if_neg (by omega)]
  · rw [adv_idx]
    omega

theorem szStep_pos_eq (st : Context) (n : Nat) : st.szStep (n : Int) = st.adv n := by
  unfold Context.szStep
  rw [if_neg (by omega)]
  congr 1

theorem szStep_neg_eq (st : Context) (n : Nat) (hw : st.idx < st.data.length) :
    st.szStep ((n : Int) * (-1)) = st.ret n := by
  unfold Context.szStep
  cases n with
  | zero =>
    rw [if_neg (by omega)]
    show st.adv ((0 : Int) * (-1) * (-1)).toNat = st.ret 0
    rw [ret_zero]
    have h0 : ((0 : Int) * (-1) * (-1)).toNat = 0 := by decide
    rw [h0]
    exact adv_zero_of_wf st hw
  | succ m =>
    rw [if_pos (by omega)]
    congr 1
    omega

theorem clearStep_decMany (st : Context) (a : Nat) :
    (st.decMany a).clearStep = st.clearStep := by
  refine ctx_eq ?_ rfl rfl rfl
  show ((st.data.set st.idx _).set _ 0) = st.data.set st.idx 0
  rw [show (st.decMany a).idx = st.idx from rfl, List.set_set]

theorem clearStep_incMany (st : Context) (a : Nat) :
    (st.incMany a).clearStep = st.clearStep := by
  refine ctx_eq ?_ rfl rfl rfl
  show ((st.data.set st.idx _).set _ 0) = st.data.set st.idx 0
  rw [show (st.incMany a).idx = st.idx from rfl, List.set_set]

theorem clearStep_id (st : Context) (hw : st.idx < st.data.length)
    (hcur : st.cur = 0) : st.clearStep = st := by
  show st.setCur 0 = st
  rw [← hcur]
  exact setCur_cur_self st hw

theorem view_lt_256 (st : Context) (hw : Wf st) (i : Nat) : view st i < 256 := by
  unfold view
  rcases lt_or_le i st.data.length with hi | hi
  · rw [List.getD_eq_getElem _ _ hi]
    exact hw.2 _ (List.getElem_mem hi)
  · rw [List.getD_eq_default _ _ hi]
    norm_num

theorem wrap8_i8val (d : Nat) (h : d < 256) : wrap8 (i8val d) = d := by
  unfold wrap8 i8val
  split <;> omega

theorem view_decMany (st : Context) (a : Nat) (h : st.idx < st.data.length) (i : Nat) :
    view (st.decMany a) i =
      if i = st.idx then wrap8 ((view st st.idx : Int) - a) else view st i := by
  show view (st.setCur _) i = _
  rw [view_setCur _ h, cur_eq_view]

theorem view_incMany (st : Context) (a : Nat) (h : st.idx < st.data.length) (i : Nat) :
    view (st.incMany a) i =
      if i = st.idx then (view st st.idx + a) % 256 else view st i := by
  show view (st.setCur _) i = _
  rw [view_setCur _ h, cur_eq_view]

theorem view_clearStep (st : Context) (h : st.idx < st.data.length) (i : Nat) :
    view st.clearStep i = if i = st.idx then 0 else view st i := by
  show view (st.setCur 0) i = _
  rw [view_setCur _ h]

theorem aoc_skip (st : Context) (hw : Wf st) (k : Int) (n : Nat)
    (hcur : st.cur = 0) :
    ObsEq ((st.addOff k n).clearStep) st ∧ Wf ((st.addOff k n).clearStep) := by
  have hbB : (st.addOff k n).idx < (st.addOff k n).data.length := by
    rw [addOff_idx, length_addOff]
    omega
  constructor
  · refine ⟨?_, rfl, rfl, ?_⟩
    · rw [clearStep_idx, addOff_idx]
    · intro i
      rw [view_clearStep _ hbB, addOff_idx, view_addOff]
      by_cases hi : i = st.idx
      · rw [if_pos hi, hi, ← cur_eq_view, hcur]
      · rw [if_neg hi]
        by_cases hin : i = st.idx + n
        · rw [if_pos hin]
          rw [show view st st.idx = 0 from by rw [← cur_eq_view]; exact hcur]
          rw [show i8val 0 = 0 from rfl, mul_zero, add_zero,
            wrap8_i8val _ (view_lt_256 st hw _), hin]
        · rw [if_neg hin]
  · exact wf_setCur _ _ (by norm_num) (wf_addOff _ _ _ hw)

theorem aoc_absorb (st : Context) (hw : Wf st) (k n : Nat) :
    ObsEq (((((st.decMany 1).adv n).incMany (k % 256)).ret n).addOff (k : Int) n).clearStep
      ((st.addOff (k : Int) n).clearStep) := by
  have hb0 : st.idx < st.data.length := hw.1
  set st1 := (((st.decMany 1).adv n).incMany (k % 256)).ret n with hst1
  have hidx_adv : ((st.decMany 1).adv n).idx = st.idx + n := by
    rw [adv_idx]
    rfl
  have hbadv : ((st.decMany 1).adv n).idx < ((st.decMany 1).adv n).data.length :=
    idx_lt_length_adv _ _
  have hidx_st1 : st1.idx = st.idx := by
    rw [hst1, ret_idx, incMany_idx, hidx_adv]
    omega
  have hbA : (st1.addOff (k : Int) n).idx < (st1.addOff (k : Int) n).data.length := by
    rw [addOff_idx, length_addOff]
    omega
  have hbB : (st.addOff (k : Int) n).idx < (st.addOff (k : Int) n).data.length := by
    rw [addOff_idx, length_addOff]
    omega
  have hview1 : ∀ i, view st1 i =
      if i = st.idx + n
      then ((view ((st.decMany 1).adv n) (st.idx + n)) + k % 256) % 256
      else view ((st.decMany 1).adv n) i := by
    intro i
    rw [hst1]
    show view ((((st.decMany 1).adv n).incMany (k % 256))) i = _
    rw [view_incMany _ _ hbadv, hidx_adv]
  have hview_adv : ∀ i, view ((st.decMany 1).adv n) i =
      if i = st.idx then wrap8 ((view st st.idx : Int) - 1) else view st i := by
    intro i
    rw [view_adv, view_decMany _ _ hb0]
    norm_num
  refine ⟨?_, rfl, rfl, ?_⟩
  · rw [clearStep_idx, clearStep_idx, addOff_idx, addOff_idx, hidx_st1]
  · intro i
    rw [view_clearStep _ hbA, view_clearStep _ hbB, addOff_idx, addOff_idx, hidx_st1]
    by_cases hi : i = st.idx
    · rw [if_pos hi, if_pos hi]
    · rw [if_neg hi, if_neg hi, view_addOff, view_addOff, hidx_st1]
      by_cases hin : i = st.idx + n
      · rw [if_pos hin, if_pos hin]
        have hn0 : n ≠ 0 := by
          intro h0
          rw [h0, Nat.add_zero] at hin
          exact hi hin
        have hv1 : view st1 (st.idx + n) =
            (view st (st.idx + n) + k % 256) % 256 := by
          rw [hview1, if_pos rfl, hview_adv, if_neg (by omega)]
        have hv0 : view st1 st.idx = wrap8 ((view st st.idx : Int) - 1) := by
          rw [hview1, if_neg (by omega), hview_adv, if_pos rfl]
        rw [hv1, hv0]
        apply wrap8_eq_of_modEq
        set c := view st st.idx
        set d := view st (st.idx + n)
        have e1 : (i8val ((d + k % 256) % 256) : Int) ≡ (d : Int) + (k : Int)
            [ZMOD 256] := by
          refine (i8val_modEq _).trans ?_
          show _ % _ = _ % _
          push_cast
          omega
        have e2 : (i8val (wrap8 ((c : Int) - 1)) : Int) ≡ (c : Int) - 1 [ZMOD 256] :=
          (i8val_modEq _).trans (wrap8_modEq _)
        have eB : (i8val d : Int) + (k : Int) * i8val c ≡
            (d : Int) + (k : Int) * c [ZMOD 256] :=
          (i8val_modEq d).add ((i8val_modEq c).mul_left _)
        have eA : (i8val ((d + k % 256) % 256) : Int) + (k : Int) * i8val (wrap8 ((c : Int) - 1)) ≡
            ((d : Int) + (k : Int)) + (k : Int) * ((c : Int) - 1) [ZMOD 256] :=
          e1.add (e2.mul_left _)
        have hre : ((d : Int) + (k : Int)) + (k : Int) * ((c : Int) - 1) =
            (d : Int) + (k : Int) * c := by ring
        rw [hre] at eA
        exact eA.trans eB.symm
      · rw [if_neg hin, if_neg hin, hview1, if_neg hin, hview_adv, if_neg hi]

theorem ph_sound {L : List Statement} {st : Context} {r : Outcome}
    (h : Exec L st r) : ∀ t, r = .ok t → Wf st →
    ∃ t', Exec (peephole_optimization L) st (.ok t') ∧ ObsEq t' t := by
  induction h with
  | nil st =>
    intro t hr _
    cases hr
    exact ⟨st, Exec.nil st, obsEq_refl st⟩
  | next a l st r _ ih =>
    intro t hr hw
    obtain ⟨t', hex, he⟩ := ih t hr (wf_adv st a hw)
    exact ⟨t', Exec.next _ _ _ _ hex, he⟩
  | prev a l st r _ ih =>
    intro t hr hw
    obtain ⟨t', hex, he⟩ := ih t hr (wf_ret st a hw)
    exact ⟨t', Exec.prev _ _ _ _ hex, he⟩
  | inc a l st r _ ih =>
    intro t hr hw
    obtain ⟨t', hex, he⟩ := ih t hr (wf_setCur st _ (Nat.mod_lt _ (by norm_num)) hw)
    exact ⟨t', Exec.inc _ _ _ _ hex, he⟩
  | dec a l st r _ ih =>
    intro t hr hw
    obtain ⟨t', hex, he⟩ := ih t hr (wf_setCur st _ (wrap8_lt _) hw)
    exact ⟨t', Exec.dec _ _ _ _ hex, he⟩
  | out l st r _ ih =>
    intro t hr hw
    obtain ⟨t', hex, he⟩ := ih t hr hw
    exact ⟨t', Exec.out _ _ _ hex, he⟩
  | inOk l st r b rest hb _ ih =>
    intro t hr hw
    have hwr : Wf (st.readByte b rest) := by
      refine ⟨?_, ?_⟩
      · rw [readByte_idx, length_readByte]; exact hw.1
      · intro c hc
        rcases List.mem_or_eq_of_mem_set hc with hmem | rfl
        · exact hw.2 c hmem
        · exact Nat.mod_lt _ (by norm_num)
    obtain ⟨t', hex, he⟩ := ih t hr hwr
    exact ⟨t', Exec.inOk _ _ _ _ _ hb hex, he⟩
  | inErr l st _ =>
    intro t hr
    cases hr
  | clear l st r _ ih =>
    intro t hr hw
    obtain ⟨t', hex, he⟩ := ih t hr (wf_setCur st 0 (by norm_num) hw)
    exact ⟨t', Exec.clear _ _ _ hex, he⟩
  | addOff mul off l st r _ ih =>
    intro t hr hw
    obtain ⟨t', hex, he⟩ := ih t hr (wf_addOff st mul off hw)
    exact ⟨t', Exec.addOff _ _ _ _ _ hex, he⟩
  | szDone k l st r hcur _ ih =>
    intro t hr hw
    obtain ⟨t', hex, he⟩ := ih t hr hw
    exact ⟨t', Exec.szDone _ _ _ _ hcur hex, he⟩
  | szIter k l st r hcur _ ih =>
    intro t hr hw
    obtain ⟨t', hex, he⟩ := ih t hr (wf_szStep st k hw)
    exact ⟨t', Exec.szIter _ _ _ _ hcur hex, he⟩
  | loopDone b l st r hcur hrest ih =>
    intro t hr hw
    obtain ⟨t', hex, he⟩ := ih t hr hw
    rw [show peephole_optimization (Statement.Loop b :: l) =
      phLoop b (peephole_optimization b) ++ peephole_optimization l from rfl]
    rcases phLoop_cases b (peephole_optimization b) with ⟨hEq, _⟩ |
      ⟨n, k, hb, hEq⟩ | ⟨n, hb, hEq⟩ | ⟨n, hb, hEq⟩ | hEq
    · rw [hEq, List.singleton_append]
      refine ⟨t', Exec.clear _ _ _ ?_, he⟩
      rw [clearStep_id st hw.1 hcur]
      exact hex
    · rw [hEq, List.cons_append, List.singleton_append]
      obtain ⟨hobs, hwA⟩ := aoc_skip st hw (k : Int) n hcur
      obtain ⟨t2, hex2, he2⟩ := exec_resp hex t' rfl _ (obsEq_symm hobs) hw hwA
      exact ⟨t2, Exec.addOff _ _ _ _ _ (Exec.clear _ _ _ hex2),
        obsEq_trans (obsEq_symm he2) he⟩
    · rw [hEq, List.singleton_append]
      exact ⟨t', Exec.szDone _ _ _ _ hcur hex, he⟩
    · rw [hEq, List.singleton_append]
      exact ⟨t', Exec.szDone _ _ _ _ hcur hex, he⟩
    · rw [hEq, List.singleton_append]
      exact ⟨t', Exec.loopDone _ _ _ _ hcur hex, he⟩
  | loopIter b l st st1 r hcur hbody hcont ihb ihc =>
    intro t hr hw
    have hw1 : Wf st1 := exec_wf hbody hw
    obtain ⟨tc, hexc, hec⟩ := ihc t hr hw1
    rw [show peephole_optimization (Statement.Loop b :: l) =
      phLoop b (peephole_optimization b) ++ peephole_optimization l from rfl]
    rw [show peephole_optimization (Statement.Loop b :: l) =
      phLoop b (peephole_optimization b) ++ peephole_optimization l from rfl] at hexc
    rcases phLoop_cases b (peephole_optimization b) with ⟨hEq, hb12⟩ |
      ⟨n, k, hb, hEq⟩ | ⟨n, hb, hEq⟩ | ⟨n, hb, hEq⟩ | hEq
    · rw [hEq, List.singleton_append]
      rw [hEq, List.singleton_append] at hexc
      rcases hb12 with hb | hb <;> subst hb
      · cases hbody with
        | dec _ _ _ _ hb1 =>
          cases hb1 with
          | nil =>
            cases hexc with
            | clear _ _ _ hcx =>
              rw [clearStep_decMany] at hcx
              exact ⟨tc, Exec.clear _ _ _ hcx, hec⟩
      · cases hbody with
        | inc _ _ _ _ hb1 =>
          cases hb1 with
          | nil =>
            cases hexc with
            | clear _ _ _ hcx =>
              rw [clearStep_incMany] at hcx
              exact ⟨tc, Exec.clear _ _ _ hcx, hec⟩
    · subst hb
      rw [hEq, List.cons_append, List.singleton_append]
      rw [hEq, List.cons_append, List.singleton_append] at hexc
      cases hbody with
      | dec _ _ _ _ hb1 =>
        cases hb1 with
        | next _ _ _ _ hb2 =>
          cases hb2 with
          | inc _ _ _ _ hb3 =>
            cases hb3 with
            | prev _ _ _ _ hb4 =>
              cases hb4 with
              | nil =>
                cases hexc with
                | addOff _ _ _ _ _ hcx1 =>
                  cases hcx1 with
                  | clear _ _ _ hcx2 =>
                    have hobs := aoc_absorb st hw k n
                    have hwA : Wf (((((((st.decMany (1 % 256)).adv n).incMany
                        (k % 256)).ret n)).addOff (k : Int) n).clearStep) :=
                      wf_setCur _ _ (by norm_num) (wf_addOff _ _ _ hw1)
                    have hwB : Wf ((st.addOff (k : Int) n).clearStep) :=
                      wf_setCur _ _ (by norm_num) (wf_addOff _ _ _ hw)
                    obtain ⟨t2, hex2, he2⟩ := exec_resp hcx2 tc rfl _ hobs hwA hwB
                    exact ⟨t2, Exec.addOff _ _ _ _ _ (Exec.clear _ _ _ hex2),
                      obsEq_trans (obsEq_symm he2) hec⟩
    · subst hb
      rw [hEq, List.singleton_append]
      rw [hEq, List.singleton_append] at hexc
      cases hbody with
      | prev _ _ _ _ hb1 =>
        cases hb1 with
        | nil =>
          refine ⟨tc, Exec.szIter _ _ _ _ hcur ?_, hec⟩
          rw [szStep_neg_eq st n hw.1]
          exact hexc
    · subst hb
      rw [hEq, List.singleton_append]
      rw [hEq, List.singleton_append] at hexc
      cases hbody with
      | next _ _ _ _ hb1 =>
        cases hb1 with
        | nil =>
          refine ⟨tc, Exec.szIter _ _ _ _ hcur ?_, hec⟩
          rw [szStep_pos_eq st n]
          exact hexc
    · rw [hEq, List.singleton_append]
      rw [hEq, List.singleton_append] at hexc
      obtain ⟨tb, hexb, heb⟩ := ihb st1 rfl hw
      obtain ⟨t2, hex2, he2⟩ := exec_resp hexc tc rfl tb (obsEq_symm heb) hw1
        (exec_wf hexb hw)
      exact ⟨t2, Exec.loopIter _ _ _ _ _ hcur hexb hex2,
        obsEq_trans (obsEq_symm he2) hec⟩
  | loopErr b l st e _ _ _ =>
    intro t hr
    cases hr

/-- C1, counterexample.  The claim quantifies over **every** IR sequence, but
the optimizer is not semantics-preserving on arbitrary IR:
(1) `constant_fold` counts the statements of a run rather than summing their
counts, so `optimize [Next 2] = [Next 1]` — from the initial tape the original
program ends with pointer 2, the optimized one with pointer 1; and
(2) the `AddOffset` rewrite executes its tape access unconditionally while the
loop it replaces does not run at all on a zero cell, so on the initial
one-cell tape `[->+<]` leaves the tape `[0]` but its optimized form
`[AddOffset 1 1, Clear]` grows it to `[0, 0]` — the final tapes differ. -/
theorem c1_counterexample :
    optimize [.Next 2] = some [.Next 1] ∧
      Exec [.Next 2] (Context.init []) (.ok ((Context.init []).adv 2)) ∧
      Exec [.Next 1] (Context.init []) (.ok ((Context.init []).adv 1)) ∧
      ((Context.init []).adv 2).idx ≠ ((Context.init []).adv 1).idx ∧
      optimize [.Loop [.Dec 1, .Next 1, .Inc 1, .Prev 1]] =
        some [.AddOffset 1 1, .Clear] ∧
      Exec [.Loop [.Dec 1, .Next 1, .Inc 1, .Prev 1]] (Context.init [])
        (.ok (Context.init [])) ∧
      Exec [.AddOffset 1 1, .Clear] (Context.init [])
        (.ok (((Context.init []).addOff 1 1).clearStep)) ∧
      (((Context.init []).addOff 1 1).clearStep).data ≠ (Context.init []).data := by
  refine ⟨rfl, Exec.next _ _ _ _ (Exec.nil _), Exec.next _ _ _ _ (Exec.nil _),
    by decide, rfl, Exec.loopDone _ _ _ _ (by decide) (Exec.nil _),
    Exec.addOff _ _ _ _ _ (Exec.clear _ _ _ (Exec.nil _)), by decide⟩

/-- C1, amended.  For every **parser-shaped** IR sequence `S` (counted nodes
carry count 1, the shape `program`/`stmts` emits; `Clear` is also allowed),
every well-formed growable-tape state, and the fixed cell width 8: if
executing `S` succeeds, then executing
`optimize S = peephole_optimization (constant_fold S)` succeeds with the same
final pointer, the same output-byte trace, the same remaining input, and the
same tape contents up to trailing zero cells (the `AddOffset` rewrite may
extend the tape with zeros that the original loop does not allocate). -/
theorem c1_amended (S O : List Statement) (st t : Context)
    (hp : parserishL S = true) (hopt : optimize S = some O)
    (hw : Wf st) (hex : Exec S st (.ok t)) :
    ∃ t', Exec O st (.ok t') ∧
      t'.idx = t.idx ∧ t'.output = t.output ∧ t'.input = t.input ∧
      ∀ i, view t' i = view t i := by
  simp only [optimize, Option.map_eq_some'] at hopt
  obtain ⟨F, hF, hO⟩ := hopt
  subst hO
  have hexF : Exec F st (.ok t) := cf_sound (szL S) S F hF hp st _ hex
  obtain ⟨t', hex', he⟩ := ph_sound hexF t rfl hw
  exact ⟨t', hex', he.1, he.2.2.1, he.2.1, he.2.2.2⟩

/-- C1, witness: the amended statement applied to a concrete program and the
initial state. -/
theorem c1_witness :
    ∃ t', Exec [Statement.Inc 1] (Context.init []) (.ok t') ∧
      t'.idx = ((Context.init []).incMany (1 % 256)).idx ∧
      t'.output = ((Context.init []).incMany (1 % 256)).output ∧
      t'.input = ((Context.init []).incMany (1 % 256)).input ∧
      ∀ i, view t' i = view ((Context.init []).incMany (1 % 256)) i :=
  c1_amended [.Inc 1] [.Inc 1] (Context.init [])
    ((Context.init []).incMany (1 % 256)) (by decide) rfl
    (⟨by decide, by decide⟩) (Exec.inc _ _ _ _ (Exec.nil _))
